import Mathlib

/-!
MemoryAllocate: a verification development for `memory.c`.

Shallow embedding of the block-list allocator of `memory.c`.

Modelling conventions
* The singly linked list hanging off `memoryHead` is a `List MemoryBlock`;
  the `next` field is the list structure itself and a pointer to a block of
  the list is its position (a `Nat` index); `NULL` is `none`.
* C `int` values are integers (`Int`).  The one sum that leaves the range of
  `int` for a total size `main` can read, `totalMemorySize + 1` at `INT_MAX`, is
  taken with the 32-bit wrap-around (`wrapInt32`); the other sums and
  differences of the engine stay inside `int` on block lists that tile
  `[0, totalMemorySize)`.
* `processName` is a `String`; `strcmp(a, b) == 0` is string equality.  A name
  stands for one that fits `char processName[10]`, at most 9 bytes (`NameFits`):
  `strcpy` of a longer name writes past the array, first onto `isAllocated`,
  which the block lists of the model do not show.
* `malloc` is taken to succeed (the branches guarded by `== NULL` after a
  `malloc` are not part of the model).
* What a function prints with `printf` is returned as an `Output` value.
* One pass of the command loop of `main` is `commandLoopBody`; what its `scanf`
  calls read is an argument and the prompts it prints are left out.
-/

namespace MemoryAllocate

/-- Block record `struct MemoryBlock` (the `next` pointer is the list tail). -/
structure MemoryBlock where
  startAddress : Int
  size : Int
  processName : String
  isAllocated : Bool
deriving DecidableEq, Repr

/-- Messages printed by the engine functions on standard output. -/
inductive Output where
  /-- Line `Allocated %d bytes to process '%s' using %c strategy`. -/
  | allocated (size : Int) (processName : String) (allocationStrategy : Char)
  /-- Line `Error: Not enough memory available for process '%s'`. -/
  | notEnoughMemory (processName : String)
  /-- Line `Successfully released memory for process '%s'`. -/
  | released (processName : String)
  /-- Line `Error: Process '%s' not found in allocated memory.`. -/
  | notFound (processName : String)
  /-- Line `Memory compaction completed.`. -/
  | compactionCompleted
deriving DecidableEq, Repr

/-- Function `initializeMemory(size)`: one free block `[0, size)` with empty name. -/
def initializeMemory (size : Int) : List MemoryBlock :=
  [{ startAddress := 0, size := size, processName := "", isAllocated := false }]

/-- Values of `currentBlock`, `bestFitBlock`, `worstFitBlock` when the search
loop of `allocateMemory` is left. -/
structure ScanResult where
  currentBlock : Option Nat
  bestFitBlock : Option Nat
  worstFitBlock : Option Nat
deriving DecidableEq, Repr

/-- The `while (currentBlock != NULL)` search loop of `allocateMemory`
(lines 121-136).  The list argument is what is left to visit, `idx` is the
position of its first block in the whole list. -/
def scanLoop (size : Int) (allocationStrategy : Char) :
    List MemoryBlock → Nat → Option Nat → Option Nat → Int → Int → ScanResult
  | [], _, bestFitBlock, worstFitBlock, _, _ =>
      { currentBlock := none, bestFitBlock := bestFitBlock, worstFitBlock := worstFitBlock }
  | currentBlock :: rest, idx, bestFitBlock, worstFitBlock, bestFitSize, worstFitSize =>
      if currentBlock.isAllocated = false ∧ currentBlock.size ≥ size then
        if allocationStrategy = 'F' then
          { currentBlock := some idx, bestFitBlock := bestFitBlock,
            worstFitBlock := worstFitBlock }
        else if allocationStrategy = 'B' ∧ currentBlock.size < bestFitSize then
          scanLoop size allocationStrategy rest (idx + 1) (some idx) worstFitBlock
            currentBlock.size worstFitSize
        else if allocationStrategy = 'W' ∧ currentBlock.size > worstFitSize then
          scanLoop size allocationStrategy rest (idx + 1) bestFitBlock (some idx)
            bestFitSize currentBlock.size
        else
          scanLoop size allocationStrategy rest (idx + 1) bestFitBlock worstFitBlock
            bestFitSize worstFitSize
      else
        scanLoop size allocationStrategy rest (idx + 1) bestFitBlock worstFitBlock
          bestFitSize worstFitSize

/-- Value of an `int` expression whose exact value is `x`, for a 32-bit `int`
whose overflow wraps around (two's complement); the identity on the range of `int`. -/
def wrapInt32 (x : Int) : Int :=
  (x + 2147483648) % 4294967296 - 2147483648

/-- Search and choice of `selectedBlock` in `allocateMemory` (lines 114-146);
`bestFitSize` starts as the `int` value of `totalMemorySize + 1` (line 117). -/
def selectBlock (totalMemorySize : Int) (memoryHead : List MemoryBlock) (size : Int)
    (allocationStrategy : Char) : Option Nat :=
  let r := scanLoop size allocationStrategy memoryHead 0 none none
    (wrapInt32 (totalMemorySize + 1)) 0
  if allocationStrategy = 'B' ∧ r.bestFitBlock ≠ none then r.bestFitBlock
  else if allocationStrategy = 'W' ∧ r.worstFitBlock ≠ none then r.worstFitBlock
  else if allocationStrategy = 'F' ∧ r.currentBlock ≠ none then r.currentBlock
  else none

/-- Relinking of lines 171-179: the new block becomes the head when the
selected block is the head, otherwise the predecessor of the selected block
(position `i`) is made to point to it. -/
def insertBefore (newAllocatedBlock : MemoryBlock) : List MemoryBlock → Nat → List MemoryBlock
  | [], _ => []
  | b :: rest, 0 => newAllocatedBlock :: b :: rest
  | b :: rest, i + 1 => b :: insertBefore newAllocatedBlock rest i

/-- Placement into the selected block at position `i` (lines 150-180), for a
name that `strcpy` can store inside `processName[10]` (at most 9 bytes). -/
def placeBlock (memoryHead : List MemoryBlock) (i : Nat) (processName : String)
    (size : Int) : List MemoryBlock :=
  match memoryHead[i]? with
  | none => memoryHead
  | some selectedBlock =>
      if selectedBlock.size = size then
        memoryHead.set i { selectedBlock with isAllocated := true, processName := processName }
      else
        let newAllocatedBlock : MemoryBlock :=
          { startAddress := selectedBlock.startAddress, size := size,
            processName := processName, isAllocated := true }
        insertBefore newAllocatedBlock
          (memoryHead.set i { selectedBlock with
              startAddress := selectedBlock.startAddress + size,
              size := selectedBlock.size - size }) i

/-- Function `allocateMemory(processName, size, allocationStrategy)`; the
global `totalMemorySize` it reads is the first argument. -/
def allocateMemory (totalMemorySize : Int) (memoryHead : List MemoryBlock)
    (processName : String) (size : Int) (allocationStrategy : Char) :
    List MemoryBlock × Output :=
  match selectBlock totalMemorySize memoryHead size allocationStrategy with
  | some i =>
      (placeBlock memoryHead i processName size,
        Output.allocated size processName allocationStrategy)
  | none => (memoryHead, Output.notEnoughMemory processName)

/-- Search loop of `releaseMemory` (lines 192-193, 230): position of the first
block with `isAllocated && strcmp(processName, name) == 0`. -/
def findProcess (processName : String) : List MemoryBlock → Option Nat
  | [] => none
  | currentBlock :: rest =>
      if currentBlock.isAllocated = true ∧ currentBlock.processName = processName then some 0
      else (findProcess processName rest).map (· + 1)

/-- Body of the `if` of `releaseMemory` (lines 194-225) for the block found
at position `i`: mark free, clear the name, merge with the next block when it
is free, then merge into the previous block when that one is free, or reset
the start address when there is no previous block. -/
def releaseBlock (memoryHead : List MemoryBlock) (i : Nat) : List MemoryBlock :=
  match memoryHead[i]? with
  | none => memoryHead
  | some found =>
      let currentBlock : MemoryBlock := { found with isAllocated := false, processName := "" }
      let l1 := memoryHead.set i currentBlock
      let merged : List MemoryBlock × MemoryBlock :=
        match l1[i + 1]? with
        | some nextBlock =>
            if nextBlock.isAllocated = false then
              let c : MemoryBlock := { currentBlock with size := currentBlock.size + nextBlock.size }
              ((l1.set i c).eraseIdx (i + 1), c)
            else (l1, currentBlock)
        | none => (l1, currentBlock)
      match i with
      | 0 => merged.1.set 0 { merged.2 with startAddress := 0 }
      | p + 1 =>
          match merged.1[p]? with
          | some previousBlock =>
              if previousBlock.isAllocated = false then
                (merged.1.set p { previousBlock with
                    size := previousBlock.size + merged.2.size }).eraseIdx (p + 1)
              else merged.1
          | none => merged.1

/-- Block `b` as `releaseMemory` leaves it at lines 194-195. -/
def freed (b : MemoryBlock) : MemoryBlock :=
  { b with isAllocated := false, processName := "" }

/-- Functional reading of lines 210-215: the freed block `c` absorbs the block
that follows it when that block is free.  Returns the block and what follows it. -/
def mergeNext (c : MemoryBlock) : List MemoryBlock → MemoryBlock × List MemoryBlock
  | [] => (c, [])
  | nextBlock :: post =>
      if nextBlock.isAllocated = false then
        ({ c with size := c.size + nextBlock.size }, post)
      else (c, nextBlock :: post)

/-- Function `releaseMemory(processName)`. -/
def releaseMemory (memoryHead : List MemoryBlock) (processName : String) :
    List MemoryBlock × Output :=
  match findProcess processName memoryHead with
  | some i => (releaseBlock memoryHead i, Output.released processName)
  | none => (memoryHead, Output.notFound processName)

/-- First pass of `compactMemory` (lines 245-282): `newList` is the list from
`newHead` to `newTailUsed`. -/
def compactLoop : List MemoryBlock → List MemoryBlock → Int → Int →
    List MemoryBlock × Int × Int
  | [], newList, currentAddress, totalFreeSize => (newList, currentAddress, totalFreeSize)
  | currentBlock :: rest, newList, currentAddress, totalFreeSize =>
      if currentBlock.isAllocated = true then
        compactLoop rest
          (newList ++ [{ startAddress := currentAddress, size := currentBlock.size,
                         processName := currentBlock.processName, isAllocated := true }])
          (currentAddress + currentBlock.size) totalFreeSize
      else
        compactLoop rest newList currentAddress (totalFreeSize + currentBlock.size)

/-- Function `compactMemory()`. -/
def compactMemory (memoryHead : List MemoryBlock) : List MemoryBlock × Output :=
  match compactLoop memoryHead [] 0 0 with
  | (newList, currentAddress, totalFreeSize) =>
      if totalFreeSize > 0 then
        (newList ++ [{ startAddress := currentAddress, size := totalFreeSize,
                       processName := "", isAllocated := false }],
          Output.compactionCompleted)
      else (newList, Output.compactionCompleted)

/-- One call of an engine function that changes the block list. -/
inductive Op where
  | allocate (processName : String) (size : Int) (allocationStrategy : Char)
  | release (processName : String)
  | compact
deriving DecidableEq, Repr

/-- Block list after one call; `totalMemorySize` is the global read by
`allocateMemory`. -/
def step (totalMemorySize : Int) (memoryHead : List MemoryBlock) : Op → List MemoryBlock
  | Op.allocate processName size allocationStrategy =>
      (allocateMemory totalMemorySize memoryHead processName size allocationStrategy).1
  | Op.release processName => (releaseMemory memoryHead processName).1
  | Op.compact => (compactMemory memoryHead).1

/-- Block list after the calls `ops`, made in order, as `main` makes them:
`totalMemorySize = memorySize; initializeMemory(totalMemorySize);` and then
one call per command. -/
def run (memorySize : Int) (ops : List Op) : List MemoryBlock :=
  ops.foldl (step memorySize) (initializeMemory memorySize)

/-- The blocks of the list lie end to end from address `a` to address `b`, each
with a positive size. -/
def TilesFrom : Int → List MemoryBlock → Int → Prop
  | a, [], b => a = b
  | a, blk :: rest, b =>
      blk.startAddress = a ∧ 0 < blk.size ∧ TilesFrom (a + blk.size) rest b

instance instDecidableTilesFrom :
    (a : Int) → (l : List MemoryBlock) → (b : Int) → Decidable (TilesFrom a l b)
  | a, [], b => inferInstanceAs (Decidable (a = b))
  | a, blk :: rest, b =>
      have := instDecidableTilesFrom (a + blk.size) rest b
      inferInstanceAs (Decidable (blk.startAddress = a ∧ 0 < blk.size ∧
        TilesFrom (a + blk.size) rest b))

/-- Address-space tiling invariant for total size `N`: the list is non-empty,
every block has a positive size, the first block starts at 0, every block ends
where the next one starts, and the last block ends at `N`. -/
def TilingInvariant (N : Int) (l : List MemoryBlock) : Prop :=
  l ≠ [] ∧
  (∀ b ∈ l, 0 < b.size) ∧
  (∀ b, l.head? = some b → b.startAddress = 0) ∧
  (∀ i b c, l[i]? = some b → l[i + 1]? = some c → b.startAddress + b.size = c.startAddress) ∧
  (∀ b, l.getLast? = some b → b.startAddress + b.size = N)

/-- Two neighbouring blocks are not both free. -/
def NotBothFree (b c : MemoryBlock) : Prop :=
  ¬ (b.isAllocated = false ∧ c.isAllocated = false)

/-- Test of line 122: block `b` is free and at least `size` long. -/
def Fits (size : Int) (b : MemoryBlock) : Prop :=
  b.isAllocated = false ∧ b.size ≥ size

instance instDecidableFits (size : Int) (b : MemoryBlock) : Decidable (Fits size b) :=
  inferInstanceAs (Decidable (b.isAllocated = false ∧ b.size ≥ size))

/-- Allocated blocks of the list that carry the label `processName`. -/
def allocatedTo (processName : String) (l : List MemoryBlock) : List MemoryBlock :=
  l.filter (fun c => c.isAllocated && c.processName == processName)

/-- Example list: free blocks of size 30 at 0, 10 at 30 and 60 at 40. -/
def threeFreeBlocks : List MemoryBlock :=
  [{ startAddress := 0, size := 30, processName := "", isAllocated := false },
   { startAddress := 30, size := 10, processName := "", isAllocated := false },
   { startAddress := 40, size := 60, processName := "", isAllocated := false }]

/-- One line printed by the loop of `printMemoryStatus` (lines 323-328). -/
inductive StatusLine where
  /-- Line `Addresses [%d:%d] Process '%s'`. -/
  | process (first last : Int) (processName : String)
  /-- Line `Addresses [%d:%d] Unused`. -/
  | unused (first last : Int)
deriving DecidableEq, Repr

/-- First address printed on a status line. -/
def StatusLine.first : StatusLine → Int
  | StatusLine.process first _ _ => first
  | StatusLine.unused first _ => first

/-- Last address (inclusive) printed on a status line. -/
def StatusLine.last : StatusLine → Int
  | StatusLine.process _ last _ => last
  | StatusLine.unused _ last => last

/-- What `printMemoryStatus` prints: one line per block, then the line
`Total memory size: %d bytes`. -/
structure StatusReport where
  lines : List StatusLine
  totalMemorySize : Int
deriving DecidableEq, Repr

/-- Body of the loop of `printMemoryStatus` (lines 323-328): the line printed
for `currentBlock`. -/
def statusLineOf (currentBlock : MemoryBlock) : StatusLine :=
  if currentBlock.isAllocated = true then
    StatusLine.process currentBlock.startAddress
      (currentBlock.startAddress + currentBlock.size - 1) currentBlock.processName
  else
    StatusLine.unused currentBlock.startAddress
      (currentBlock.startAddress + currentBlock.size - 1)

/-- The `while (currentBlock != NULL)` loop of `printMemoryStatus` (lines 322-330). -/
def printLoop : List MemoryBlock → List StatusLine
  | [] => []
  | currentBlock :: rest => statusLineOf currentBlock :: printLoop rest

/-- Function `printMemoryStatus()`; it reads the globals `memoryHead` and
`totalMemorySize` and writes neither, so the list is returned as it was. -/
def printMemoryStatus (totalMemorySize : Int) (memoryHead : List MemoryBlock) :
    List MemoryBlock × StatusReport :=
  (memoryHead, { lines := printLoop memoryHead, totalMemorySize := totalMemorySize })

/-- Help text printed by `main` before the command loop (lines 45-49): the
command name each line starts with and the action it announces. -/
def helpText : List (String × String) :=
  [("RQ", "Request memory allocation"),
   ("RL", "Release allocated memory"),
   ("C", "Compact memory"),
   ("ST", "Print memory status"),
   ("EX", "Exit the program")]

/-- What one pass of the command loop of `main` writes after its prompts. -/
inductive Printed where
  /-- Line `Error reading command.`. -/
  | errorReadingCommand
  /-- Line `Invalid input for request command.`. -/
  | invalidRequestInput
  /-- Line `Invalid input for release command.`. -/
  | invalidReleaseInput
  /-- The message of the engine function that was called. -/
  | engine (output : Output)
  /-- The report of `printMemoryStatus`. -/
  | status (report : StatusReport)
  /-- Line `Invalid command. Please use one of the listed commands.`. -/
  | invalidCommand
  /-- Nothing is written (the `break` of the exit branch). -/
  | nothing
deriving DecidableEq, Repr

/-- State after one pass of the command loop: the block list, what was written,
and whether the loop goes on (`false` after a `break`). -/
structure LoopResult where
  memoryHead : List MemoryBlock
  printed : Printed
  continues : Bool
deriving DecidableEq, Repr

/-- One pass of the `while (true)` loop of `main` (lines 51-84).  `command` is
what `scanf("%s", command)` read (`none` when it does not return 1),
`requestFields` what `scanf("%s %d %c", ...)` reads when the request branch
calls it (`none` when it does not return 3), `releaseField` what
`scanf("%s", processName)` reads when the release branch calls it. -/
def commandLoopBody (totalMemorySize : Int) (memoryHead : List MemoryBlock)
    (command : Option String) (requestFields : Option (String × Int × Char))
    (releaseField : Option String) : LoopResult :=
  match command with
  | none => { memoryHead := memoryHead, printed := Printed.errorReadingCommand,
              continues := false }
  | some command =>
      if command = "RQ" then
        match requestFields with
        | none => { memoryHead := memoryHead, printed := Printed.invalidRequestInput,
                    continues := true }
        | some (processName, size, strategy) =>
            { memoryHead := (allocateMemory totalMemorySize memoryHead processName size
                strategy).1,
              printed := Printed.engine (allocateMemory totalMemorySize memoryHead processName
                size strategy).2,
              continues := true }
      else if command = "RL" then
        match releaseField with
        | none => { memoryHead := memoryHead, printed := Printed.invalidReleaseInput,
                    continues := true }
        | some processName =>
            { memoryHead := (releaseMemory memoryHead processName).1,
              printed := Printed.engine (releaseMemory memoryHead processName).2,
              continues := true }
      else if command = "C" then
        { memoryHead := (compactMemory memoryHead).1,
          printed := Printed.engine (compactMemory memoryHead).2, continues := true }
      else if command = "STAT" then
        { memoryHead := (printMemoryStatus totalMemorySize memoryHead).1,
          printed := Printed.status (printMemoryStatus totalMemorySize memoryHead).2,
          continues := true }
      else if command = "X" then
        { memoryHead := memoryHead, printed := Printed.nothing, continues := false }
      else
        { memoryHead := memoryHead, printed := Printed.invalidCommand, continues := true }

/-- Allocated blocks of the list, in list order. -/
def allocatedBlocks (l : List MemoryBlock) : List MemoryBlock :=
  l.filter (fun b => b.isAllocated)

/-- Free blocks of the list, in list order. -/
def freeBlocks (l : List MemoryBlock) : List MemoryBlock :=
  l.filter (fun b => !b.isAllocated)

/-- Sum of the sizes of the blocks of the list. -/
def sizeSum (l : List MemoryBlock) : Int :=
  (l.map (fun b => b.size)).sum

/-- The blocks of the list, marked allocated and placed end to end from address `a`,
each with its own size and name. -/
def relocate : Int → List MemoryBlock → List MemoryBlock
  | _, [] => []
  | a, b :: rest =>
      { startAddress := a, size := b.size, processName := b.processName, isAllocated := true } ::
        relocate (a + b.size) rest

/-- Example list of the compaction example: `A` in `[0, 20)`, free `[20, 50)`,
`B` in `[50, 60)`, free `[60, 100)`. -/
def fragmentedBlocks : List MemoryBlock :=
  [{ startAddress := 0, size := 20, processName := "A", isAllocated := true },
   { startAddress := 20, size := 30, processName := "", isAllocated := false },
   { startAddress := 50, size := 10, processName := "B", isAllocated := true },
   { startAddress := 60, size := 40, processName := "", isAllocated := false }]

/-- Names of the allocated blocks of the list, in list order. -/
def allocatedNames (l : List MemoryBlock) : List String :=
  (allocatedBlocks l).map (fun b => b.processName)

/-- Names stored in the free blocks of the list, in list order. -/
def freeNames (l : List MemoryBlock) : List String :=
  (freeBlocks l).map (fun b => b.processName)

/-- Owner invariant: every allocated block has a non-empty name, no two
allocated blocks (at different positions) have the same name, and every free
block has the empty name. -/
def OwnerInvariant (l : List MemoryBlock) : Prop :=
  (∀ b ∈ l, b.isAllocated = true → b.processName ≠ "") ∧
  l.Pairwise (fun b c =>
    ¬ (b.isAllocated = true ∧ c.isAllocated = true ∧ b.processName = c.processName)) ∧
  (∀ b ∈ l, b.isAllocated = false → b.processName = "")

/-- Documented precondition of a call in the state `l`: an `allocateMemory` call
has a non-empty owner that labels no allocated block of `l`; the other calls are
unconstrained. -/
def OwnerPrecondition (l : List MemoryBlock) : Op → Prop
  | Op.allocate processName _ _ =>
      processName ≠ "" ∧ ∀ b ∈ l, b.isAllocated = true → b.processName ≠ processName
  | Op.release _ => True
  | Op.compact => True

/-- Every call of `ops`, made in order from the state `l`, meets the documented
owner precondition in the state it is made in. -/
def OwnersRespected (totalMemorySize : Int) : List MemoryBlock → List Op → Prop
  | _, [] => True
  | l, op :: ops =>
      OwnerPrecondition l op ∧ OwnersRespected totalMemorySize (step totalMemorySize l op) ops

instance instDecidableOwnerPrecondition (l : List MemoryBlock) :
    (op : Op) → Decidable (OwnerPrecondition l op)
  | Op.allocate processName _ _ =>
      inferInstanceAs (Decidable (processName ≠ "" ∧
        ∀ b ∈ l, b.isAllocated = true → b.processName ≠ processName))
  | Op.release _ => inferInstanceAs (Decidable True)
  | Op.compact => inferInstanceAs (Decidable True)

instance instDecidableOwnersRespected (totalMemorySize : Int) :
    (l : List MemoryBlock) → (ops : List Op) →
      Decidable (OwnersRespected totalMemorySize l ops)
  | _, [] => inferInstanceAs (Decidable True)
  | l, op :: ops =>
      have := instDecidableOwnersRespected totalMemorySize (step totalMemorySize l op) ops
      inferInstanceAs (Decidable (OwnerPrecondition l op ∧
        OwnersRespected totalMemorySize (step totalMemorySize l op) ops))

/-- The name fits `char processName[10]` with its terminator: at most 9 bytes. -/
def NameFits (processName : String) : Prop :=
  processName.utf8ByteSize ≤ 9

instance instDecidableNameFits (processName : String) : Decidable (NameFits processName) :=
  inferInstanceAs (Decidable (processName.utf8ByteSize ≤ 9))

/-! Lists and positions -/

theorem getElem?_at_length (pre : List MemoryBlock) (x : MemoryBlock) (post : List MemoryBlock) :
    (pre ++ x :: post)[pre.length]? = some x := by
  induction pre with
  | nil => simp
  | cons a pre ih => simpa using ih

theorem getElem?_after_length (pre : List MemoryBlock) (x : MemoryBlock) (post : List MemoryBlock) :
    (pre ++ x :: post)[pre.length + 1]? = post.head? := by
  induction pre with
  | nil => cases post <;> simp
  | cons a pre ih => simpa using ih

theorem set_at_length (pre : List MemoryBlock) (x y : MemoryBlock) (post : List MemoryBlock) :
    (pre ++ x :: post).set pre.length y = pre ++ y :: post := by
  simp

theorem eraseIdx_at_length (pre : List MemoryBlock) (x : MemoryBlock) (post : List MemoryBlock) :
    (pre ++ x :: post).eraseIdx pre.length = pre ++ post := by
  induction pre with
  | nil => simp
  | cons a pre ih => simpa using ih

theorem eraseIdx_after_length (pre : List MemoryBlock) (x y : MemoryBlock)
    (post : List MemoryBlock) :
    (pre ++ x :: y :: post).eraseIdx (pre.length + 1) = pre ++ x :: post := by
  induction pre with
  | nil => simp
  | cons a pre ih => simpa using ih

theorem insertBefore_at_length (y : MemoryBlock) (pre : List MemoryBlock) (x : MemoryBlock)
    (post : List MemoryBlock) :
    insertBefore y (pre ++ x :: post) pre.length = pre ++ y :: x :: post := by
  induction pre with
  | nil => simp [insertBefore]
  | cons a pre ih => simpa [insertBefore] using ih

/-- Every position of a list splits it around the block stored there. -/
theorem split_at_index (l : List MemoryBlock) (i : Nat) (b : MemoryBlock) (h : l[i]? = some b) :
    ∃ pre post, l = pre ++ b :: post ∧ pre.length = i := by
  induction l generalizing i with
  | nil => simp at h
  | cons a l ih =>
    cases i with
    | zero =>
      simp at h
      exact ⟨[], l, by simp [h], rfl⟩
    | succ i =>
      simp at h
      obtain ⟨pre, post, h1, h2⟩ := ih i h
      exact ⟨a :: pre, post, by simp [h1], by simp [h2]⟩

theorem placeBlock_append (pre : List MemoryBlock) (b : MemoryBlock) (post : List MemoryBlock)
    (processName : String) (size : Int) :
    placeBlock (pre ++ b :: post) pre.length processName size =
      if b.size = size then
        pre ++ { b with isAllocated := true, processName := processName } :: post
      else
        pre ++ { startAddress := b.startAddress, size := size, processName := processName,
                 isAllocated := true } ::
          { b with startAddress := b.startAddress + size, size := b.size - size } :: post := by
  unfold placeBlock
  rw [getElem?_at_length]
  by_cases h : b.size = size
  · simp only [h, if_true, set_at_length]
  · simp only [h, if_false, set_at_length, insertBefore_at_length]

theorem releaseBlock_head (cur : MemoryBlock) (post : List MemoryBlock) :
    releaseBlock (cur :: post) 0 =
      { (mergeNext (freed cur) post).1 with startAddress := 0 } ::
        (mergeNext (freed cur) post).2 := by
  cases post with
  | nil => simp [releaseBlock, mergeNext, freed]
  | cons nx post =>
    by_cases h : nx.isAllocated = false <;> simp [releaseBlock, mergeNext, freed, h]

theorem releaseBlock_inner (pre : List MemoryBlock) (pv cur : MemoryBlock)
    (post : List MemoryBlock) :
    releaseBlock (pre ++ pv :: cur :: post) (pre.length + 1) =
      if pv.isAllocated = false then
        pre ++ { pv with size := pv.size + (mergeNext (freed cur) post).1.size } ::
          (mergeNext (freed cur) post).2
      else pre ++ pv :: (mergeNext (freed cur) post).1 :: (mergeNext (freed cur) post).2 := by
  have g1 : ∀ (x : MemoryBlock) (rest : List MemoryBlock),
      (pre ++ pv :: x :: rest)[pre.length + 1]? = some x := by
    intro x rest
    simpa using getElem?_at_length (pre ++ [pv]) x rest
  have g2 : ∀ (x : MemoryBlock) (rest : List MemoryBlock),
      (pre ++ pv :: x :: rest)[pre.length + 1 + 1]? = rest.head? := by
    intro x rest
    simpa using getElem?_after_length (pre ++ [pv]) x rest
  have g3 : ∀ (x y : MemoryBlock) (rest : List MemoryBlock),
      (pre ++ pv :: x :: rest).set (pre.length + 1) y = pre ++ pv :: y :: rest := by
    intro x y rest
    simp
  have g4 : ∀ (x y : MemoryBlock) (rest : List MemoryBlock),
      (pre ++ pv :: x :: y :: rest).eraseIdx (pre.length + 1 + 1) = pre ++ pv :: x :: rest := by
    intro x y rest
    simpa using eraseIdx_after_length (pre ++ [pv]) x y rest
  unfold releaseBlock
  simp only [g1, g3, g2]
  cases post with
  | nil =>
    by_cases hp : pv.isAllocated = false <;>
      simp only [mergeNext, freed, hp, getElem?_at_length, set_at_length,
        eraseIdx_after_length, List.head?_nil, if_true, if_false, reduceCtorEq]
  | cons nx post =>
    by_cases h : nx.isAllocated = false <;> by_cases hp : pv.isAllocated = false <;>
      simp only [mergeNext, freed, h, hp, g3, g4, getElem?_at_length, set_at_length,
        eraseIdx_after_length, List.head?_cons, if_true, if_false, reduceCtorEq]

theorem tilesFrom_append (a c : Int) (l1 l2 : List MemoryBlock) :
    TilesFrom a (l1 ++ l2) c ↔ ∃ m, TilesFrom a l1 m ∧ TilesFrom m l2 c := by
  induction l1 generalizing a with
  | nil => simp [TilesFrom]
  | cons x l1 ih =>
    show (x.startAddress = a ∧ 0 < x.size ∧ TilesFrom (a + x.size) (l1 ++ l2) c) ↔
      ∃ m, (x.startAddress = a ∧ 0 < x.size ∧ TilesFrom (a + x.size) l1 m) ∧ TilesFrom m l2 c
    rw [ih]
    constructor
    · rintro ⟨h1, h2, m, h3, h4⟩
      exact ⟨m, ⟨h1, h2, h3⟩, h4⟩
    · rintro ⟨m, ⟨h1, h2, h3⟩, h4⟩
      exact ⟨h1, h2, m, h3, h4⟩

theorem tilesFrom_le (a c : Int) (l : List MemoryBlock) (h : TilesFrom a l c) : a ≤ c := by
  induction l generalizing a with
  | nil => simp [TilesFrom] at h; omega
  | cons x l ih =>
    obtain ⟨_, h2, h3⟩ := h
    have := ih _ h3
    omega

theorem tilesFrom_bounds (a c : Int) (l : List MemoryBlock) (h : TilesFrom a l c) :
    ∀ b ∈ l, 0 < b.size ∧ a ≤ b.startAddress ∧ b.startAddress + b.size ≤ c := by
  induction l generalizing a with
  | nil => simp
  | cons x l ih =>
    obtain ⟨h1, h2, h3⟩ := h
    intro b hb
    rcases List.mem_cons.1 hb with rfl | hb
    · have := tilesFrom_le _ _ _ h3
      omega
    · have := ih _ h3 b hb
      omega

theorem tilesFrom_place (a c : Int) (pre : List MemoryBlock) (b : MemoryBlock)
    (post : List MemoryBlock) (processName : String) (size : Int)
    (hs : 0 < size) (hb : size ≤ b.size) (h : TilesFrom a (pre ++ b :: post) c) :
    TilesFrom a (placeBlock (pre ++ b :: post) pre.length processName size) c := by
  rw [placeBlock_append]
  rw [tilesFrom_append] at h
  obtain ⟨m, h1, h2, h3, h4⟩ := h
  by_cases e : b.size = size
  · rw [if_pos e, tilesFrom_append]
    exact ⟨m, h1, h2, h3, h4⟩
  · rw [if_neg e, tilesFrom_append]
    refine ⟨m, h1, h2, hs, ?_, ?_, ?_⟩
    · simp only; omega
    · simp only; omega
    · have e2 : m + size + (b.size - size) = m + b.size := by omega
      simpa only [e2] using h4

theorem tilesFrom_release_head (c : Int) (cur : MemoryBlock) (post : List MemoryBlock)
    (h : TilesFrom 0 (cur :: post) c) : TilesFrom 0 (releaseBlock (cur :: post) 0) c := by
  rw [releaseBlock_head]
  obtain ⟨h1, h2, h3⟩ := h
  cases post with
  | nil => exact ⟨rfl, h2, h3⟩
  | cons nx post =>
    obtain ⟨k1, k2, k3⟩ := h3
    by_cases e : nx.isAllocated = false
    · simp only [mergeNext, e, if_true, freed]
      refine ⟨rfl, ?_, ?_⟩
      · simp only; omega
      · have e2 : (0 : Int) + (cur.size + nx.size) = 0 + cur.size + nx.size := by omega
        simpa only [e2] using k3
    · simp only [mergeNext, e, if_false, freed]
      exact ⟨rfl, h2, k1, k2, k3⟩

theorem tilesFrom_release_inner (a c : Int) (pre : List MemoryBlock) (pv cur : MemoryBlock)
    (post : List MemoryBlock) (h : TilesFrom a (pre ++ pv :: cur :: post) c) :
    TilesFrom a (releaseBlock (pre ++ pv :: cur :: post) (pre.length + 1)) c := by
  rw [releaseBlock_inner]
  rw [tilesFrom_append] at h
  obtain ⟨m, h0, p1, p2, h1, h2, h3⟩ := h
  have key : ∃ e, TilesFrom (m + pv.size)
      ((mergeNext (freed cur) post).1 :: (mergeNext (freed cur) post).2) c ∧
      (mergeNext (freed cur) post).1.size = e ∧ 0 < e := by
    cases post with
    | nil => exact ⟨cur.size, ⟨h1, h2, h3⟩, rfl, h2⟩
    | cons nx post =>
      obtain ⟨k1, k2, k3⟩ := h3
      by_cases e : nx.isAllocated = false
      · simp only [mergeNext, e, if_true, freed]
        have hpos : 0 < cur.size + nx.size := by omega
        refine ⟨cur.size + nx.size, ⟨h1, hpos, ?_⟩, rfl, hpos⟩
        have e2 : m + pv.size + (cur.size + nx.size) = m + pv.size + cur.size + nx.size := by
          omega
        simpa only [e2] using k3
      · simp only [mergeNext, e, if_false, freed]
        exact ⟨cur.size, ⟨h1, h2, k1, k2, k3⟩, rfl, h2⟩
  obtain ⟨e, ⟨q1, q2, q3⟩, q4, q5⟩ := key
  by_cases hp : pv.isAllocated = false
  · rw [if_pos hp, tilesFrom_append]
    refine ⟨m, h0, p1, ?_, ?_⟩
    · simp only; omega
    · have e2 : m + (pv.size + (mergeNext (freed cur) post).1.size) =
          m + pv.size + (mergeNext (freed cur) post).1.size := by omega
      simpa only [e2] using q3
  · rw [if_neg hp, tilesFrom_append]
    exact ⟨m, h0, p1, p2, q1, q2, q3⟩

theorem scanLoop_other (size : Int) (s : Char) (hF : s ≠ 'F') (hB : s ≠ 'B') (hW : s ≠ 'W')
    (rest : List MemoryBlock) (idx : Nat) (best worst : Option Nat) (bs ws : Int) :
    scanLoop size s rest idx best worst bs ws =
      { currentBlock := none, bestFitBlock := best, worstFitBlock := worst } := by
  induction rest generalizing idx with
  | nil => rfl
  | cons x rest ih => simp [scanLoop, hF, hB, hW, ih]

theorem scanLoop_first (size : Int) (rest : List MemoryBlock) (idx : Nat)
    (best worst : Option Nat) (bs ws : Int) :
    (scanLoop size 'F' rest idx best worst bs ws).bestFitBlock = best ∧
    (scanLoop size 'F' rest idx best worst bs ws).worstFitBlock = worst ∧
    (((scanLoop size 'F' rest idx best worst bs ws).currentBlock = none ∧
        ∀ b ∈ rest, ¬ Fits size b) ∨
      ∃ j b, (scanLoop size 'F' rest idx best worst bs ws).currentBlock = some (idx + j) ∧
        rest[j]? = some b ∧ Fits size b ∧
        ∀ j' b', j' < j → rest[j']? = some b' → ¬ Fits size b') := by
  induction rest generalizing idx with
  | nil => exact ⟨rfl, rfl, Or.inl ⟨rfl, by simp⟩⟩
  | cons x rest ih =>
    by_cases hx : Fits size x
    · have e : scanLoop size 'F' (x :: rest) idx best worst bs ws =
          { currentBlock := some idx, bestFitBlock := best, worstFitBlock := worst } := by
        have hx' := hx
        unfold Fits at hx'
        simp [scanLoop, hx']
      rw [e]
      refine ⟨rfl, rfl, Or.inr ⟨0, x, rfl, by simp, hx, ?_⟩⟩
      intro j' b' hj
      omega
    · have e : scanLoop size 'F' (x :: rest) idx best worst bs ws =
          scanLoop size 'F' rest (idx + 1) best worst bs ws := by
        have hx' := hx
        unfold Fits at hx'
        simp only [scanLoop, hx', if_false]
      rw [e]
      obtain ⟨h1, h2, h3⟩ := ih (idx + 1)
      refine ⟨h1, h2, ?_⟩
      rcases h3 with ⟨h3, h4⟩ | ⟨j, b, h3, h4, h5, h6⟩
      · left
        refine ⟨h3, ?_⟩
        intro b hb
        rcases List.mem_cons.1 hb with rfl | hb
        · exact hx
        · exact h4 b hb
      · right
        refine ⟨j + 1, b, ?_, by simpa using h4, h5, ?_⟩
        · rw [h3]; congr 1; omega
        · intro j' b' hj hb'
          cases j' with
          | zero =>
            simp at hb'
            rw [← hb']; exact hx
          | succ j' =>
            simp at hb'
            exact h6 j' b' (by omega) hb'

theorem scanLoop_best (size : Int) (rest : List MemoryBlock) (idx : Nat)
    (best worst : Option Nat) (bs ws : Int) :
    (scanLoop size 'B' rest idx best worst bs ws).currentBlock = none ∧
    (scanLoop size 'B' rest idx best worst bs ws).worstFitBlock = worst ∧
    (((scanLoop size 'B' rest idx best worst bs ws).bestFitBlock = best ∧
        ∀ b ∈ rest, Fits size b → bs ≤ b.size) ∨
      ∃ j b, (scanLoop size 'B' rest idx best worst bs ws).bestFitBlock = some (idx + j) ∧
        rest[j]? = some b ∧ Fits size b ∧ b.size < bs ∧
        ∀ j' b', rest[j']? = some b' → Fits size b' →
          b.size ≤ b'.size ∧ (j' < j → b.size < b'.size)) := by
  induction rest generalizing idx best bs with
  | nil => exact ⟨rfl, rfl, Or.inl ⟨rfl, by simp⟩⟩
  | cons x rest ih =>
    by_cases hx : Fits size x
    · by_cases hlt : x.size < bs
      · have e : scanLoop size 'B' (x :: rest) idx best worst bs ws =
            scanLoop size 'B' rest (idx + 1) (some idx) worst x.size ws := by
          have hx' := hx
          unfold Fits at hx'
          simp [scanLoop, hx', hlt]
        rw [e]
        obtain ⟨h1, h2, h3⟩ := ih (idx + 1) (some idx) x.size
        refine ⟨h1, h2, Or.inr ?_⟩
        rcases h3 with ⟨h3, h4⟩ | ⟨j, b, h3, h4, h5, h6, h7⟩
        · refine ⟨0, x, by simpa using h3, by simp, hx, hlt, ?_⟩
          intro j' b' hb' hf
          cases j' with
          | zero =>
            simp at hb'
            subst hb'
            exact ⟨le_refl _, fun h => absurd h (by omega)⟩
          | succ j' =>
            simp at hb'
            exact ⟨h4 b' (List.getElem?_mem hb') hf, fun h => absurd h (by omega)⟩
        · refine ⟨j + 1, b, ?_, by simpa using h4, h5, by omega, ?_⟩
          · rw [h3]; congr 1; omega
          · intro j' b' hb' hf
            cases j' with
            | zero =>
              simp at hb'
              subst hb'
              exact ⟨by omega, fun _ => h6⟩
            | succ j' =>
              simp at hb'
              have := h7 j' b' hb' hf
              exact ⟨this.1, fun h => this.2 (by omega)⟩
      · have e : scanLoop size 'B' (x :: rest) idx best worst bs ws =
            scanLoop size 'B' rest (idx + 1) best worst bs ws := by
          have hx' := hx
          unfold Fits at hx'
          simp [scanLoop, hx', hlt]
        rw [e]
        obtain ⟨h1, h2, h3⟩ := ih (idx + 1) best bs
        refine ⟨h1, h2, ?_⟩
        rcases h3 with ⟨h3, h4⟩ | ⟨j, b, h3, h4, h5, h6, h7⟩
        · left
          refine ⟨h3, ?_⟩
          intro b hb hf
          rcases List.mem_cons.1 hb with rfl | hb
          · omega
          · exact h4 b hb hf
        · right
          refine ⟨j + 1, b, ?_, by simpa using h4, h5, h6, ?_⟩
          · rw [h3]; congr 1; omega
          · intro j' b' hb' hf
            cases j' with
            | zero =>
              simp at hb'
              subst hb'
              exact ⟨by omega, fun _ => by omega⟩
            | succ j' =>
              simp at hb'
              have := h7 j' b' hb' hf
              exact ⟨this.1, fun h => this.2 (by omega)⟩
    · have e : scanLoop size 'B' (x :: rest) idx best worst bs ws =
          scanLoop size 'B' rest (idx + 1) best worst bs ws := by
        have hx' := hx
        unfold Fits at hx'
        simp only [scanLoop, hx', if_false]
      rw [e]
      obtain ⟨h1, h2, h3⟩ := ih (idx + 1) best bs
      refine ⟨h1, h2, ?_⟩
      rcases h3 with ⟨h3, h4⟩ | ⟨j, b, h3, h4, h5, h6, h7⟩
      · left
        refine ⟨h3, ?_⟩
        intro b hb hf
        rcases List.mem_cons.1 hb with rfl | hb
        · exact absurd hf hx
        · exact h4 b hb hf
      · right
        refine ⟨j + 1, b, ?_, by simpa using h4, h5, h6, ?_⟩
        · rw [h3]; congr 1; omega
        · intro j' b' hb' hf
          cases j' with
          | zero =>
            simp at hb'
            subst hb'
            exact absurd hf hx
          | succ j' =>
            simp at hb'
            have := h7 j' b' hb' hf
            exact ⟨this.1, fun h => this.2 (by omega)⟩

theorem scanLoop_worst (size : Int) (rest : List MemoryBlock) (idx : Nat)
    (best worst : Option Nat) (bs ws : Int) :
    (scanLoop size 'W' rest idx best worst bs ws).currentBlock = none ∧
    (scanLoop size 'W' rest idx best worst bs ws).bestFitBlock = best ∧
    (((scanLoop size 'W' rest idx best worst bs ws).worstFitBlock = worst ∧
        ∀ b ∈ rest, Fits size b → b.size ≤ ws) ∨
      ∃ j b, (scanLoop size 'W' rest idx best worst bs ws).worstFitBlock = some (idx + j) ∧
        rest[j]? = some b ∧ Fits size b ∧ ws < b.size ∧
        ∀ j' b', rest[j']? = some b' → Fits size b' →
          b'.size ≤ b.size ∧ (j' < j → b'.size < b.size)) := by
  induction rest generalizing idx worst ws with
  | nil => exact ⟨rfl, rfl, Or.inl ⟨rfl, by simp⟩⟩
  | cons x rest ih =>
    by_cases hx : Fits size x
    · by_cases hlt : x.size > ws
      · have e : scanLoop size 'W' (x :: rest) idx best worst bs ws =
            scanLoop size 'W' rest (idx + 1) best (some idx) bs x.size := by
          have hx' := hx
          unfold Fits at hx'
          simp [scanLoop, hx', hlt]
        rw [e]
        obtain ⟨h1, h2, h3⟩ := ih (idx + 1) (some idx) x.size
        refine ⟨h1, h2, Or.inr ?_⟩
        rcases h3 with ⟨h3, h4⟩ | ⟨j, b, h3, h4, h5, h6, h7⟩
        · refine ⟨0, x, by simpa using h3, by simp, hx, hlt, ?_⟩
          intro j' b' hb' hf
          cases j' with
          | zero =>
            simp at hb'
            subst hb'
            exact ⟨le_refl _, fun h => absurd h (by omega)⟩
          | succ j' =>
            simp at hb'
            exact ⟨h4 b' (List.getElem?_mem hb') hf, fun h => absurd h (by omega)⟩
        · refine ⟨j + 1, b, ?_, by simpa using h4, h5, by omega, ?_⟩
          · rw [h3]; congr 1; omega
          · intro j' b' hb' hf
            cases j' with
            | zero =>
              simp at hb'
              subst hb'
              exact ⟨by omega, fun _ => h6⟩
            | succ j' =>
              simp at hb'
              have := h7 j' b' hb' hf
              exact ⟨this.1, fun h => this.2 (by omega)⟩
      · have e : scanLoop size 'W' (x :: rest) idx best worst bs ws =
            scanLoop size 'W' rest (idx + 1) best worst bs ws := by
          have hx' := hx
          unfold Fits at hx'
          simp [scanLoop, hx', hlt]
        rw [e]
        obtain ⟨h1, h2, h3⟩ := ih (idx + 1) worst ws
        refine ⟨h1, h2, ?_⟩
        rcases h3 with ⟨h3, h4⟩ | ⟨j, b, h3, h4, h5, h6, h7⟩
        · left
          refine ⟨h3, ?_⟩
          intro b hb hf
          rcases List.mem_cons.1 hb with rfl | hb
          · omega
          · exact h4 b hb hf
        · right
          refine ⟨j + 1, b, ?_, by simpa using h4, h5, h6, ?_⟩
          · rw [h3]; congr 1; omega
          · intro j' b' hb' hf
            cases j' with
            | zero =>
              simp at hb'
              subst hb'
              exact ⟨by omega, fun _ => by omega⟩
            | succ j' =>
              simp at hb'
              have := h7 j' b' hb' hf
              exact ⟨this.1, fun h => this.2 (by omega)⟩
    · have e : scanLoop size 'W' (x :: rest) idx best worst bs ws =
          scanLoop size 'W' rest (idx + 1) best worst bs ws := by
        have hx' := hx
        unfold Fits at hx'
        simp only [scanLoop, hx', if_false]
      rw [e]
      obtain ⟨h1, h2, h3⟩ := ih (idx + 1) worst ws
      refine ⟨h1, h2, ?_⟩
      rcases h3 with ⟨h3, h4⟩ | ⟨j, b, h3, h4, h5, h6, h7⟩
      · left
        refine ⟨h3, ?_⟩
        intro b hb hf
        rcases List.mem_cons.1 hb with rfl | hb
        · exact absurd hf hx
        · exact h4 b hb hf
      · right
        refine ⟨j + 1, b, ?_, by simpa using h4, h5, h6, ?_⟩
        · rw [h3]; congr 1; omega
        · intro j' b' hb' hf
          cases j' with
          | zero =>
            simp at hb'
            subst hb'
            exact absurd hf hx
          | succ j' =>
            simp at hb'
            have := h7 j' b' hb' hf
            exact ⟨this.1, fun h => this.2 (by omega)⟩

theorem wrapInt32_eq (x : Int) (h1 : -2147483648 ≤ x) (h2 : x < 2147483648) :
    wrapInt32 x = x := by
  unfold wrapInt32
  omega

theorem selectBlock_first (T : Int) (l : List MemoryBlock) (size : Int) :
    selectBlock T l size 'F' = (scanLoop size 'F' l 0 none none (wrapInt32 (T + 1)) 0).currentBlock := by
  unfold selectBlock
  cases h : (scanLoop size 'F' l 0 none none (wrapInt32 (T + 1)) 0).currentBlock <;> simp [h]

theorem selectBlock_best (T : Int) (l : List MemoryBlock) (size : Int) :
    selectBlock T l size 'B' = (scanLoop size 'B' l 0 none none (wrapInt32 (T + 1)) 0).bestFitBlock := by
  unfold selectBlock
  cases h : (scanLoop size 'B' l 0 none none (wrapInt32 (T + 1)) 0).bestFitBlock <;> simp [h]

theorem selectBlock_worst (T : Int) (l : List MemoryBlock) (size : Int) :
    selectBlock T l size 'W' = (scanLoop size 'W' l 0 none none (wrapInt32 (T + 1)) 0).worstFitBlock := by
  unfold selectBlock
  cases h : (scanLoop size 'W' l 0 none none (wrapInt32 (T + 1)) 0).worstFitBlock <;> simp [h]

theorem selectBlock_other (T : Int) (l : List MemoryBlock) (size : Int) (s : Char)
    (hF : s ≠ 'F') (hB : s ≠ 'B') (hW : s ≠ 'W') : selectBlock T l size s = none := by
  unfold selectBlock
  simp [hF, hB, hW]

/-- Whatever the strategy, a selected position holds a free block that is large enough. -/
theorem selectBlock_sound (T : Int) (l : List MemoryBlock) (size : Int) (s : Char) (i : Nat)
    (h : selectBlock T l size s = some i) : ∃ b, l[i]? = some b ∧ Fits size b := by
  by_cases hF : s = 'F'
  · subst hF
    rw [selectBlock_first] at h
    obtain ⟨-, -, h3⟩ := scanLoop_first size l 0 none none (wrapInt32 (T + 1)) 0
    rcases h3 with ⟨h3, -⟩ | ⟨j, b, h3, h4, h5, -⟩
    · rw [h3] at h; cases h
    · rw [h3] at h
      have : i = j := by simpa using h.symm
      subst this
      exact ⟨b, h4, h5⟩
  by_cases hB : s = 'B'
  · subst hB
    rw [selectBlock_best] at h
    obtain ⟨-, -, h3⟩ := scanLoop_best size l 0 none none (wrapInt32 (T + 1)) 0
    rcases h3 with ⟨h3, -⟩ | ⟨j, b, h3, h4, h5, -⟩
    · rw [h3] at h; cases h
    · rw [h3] at h
      have : i = j := by simpa using h.symm
      subst this
      exact ⟨b, h4, h5⟩
  by_cases hW : s = 'W'
  · subst hW
    rw [selectBlock_worst] at h
    obtain ⟨-, -, h3⟩ := scanLoop_worst size l 0 none none (wrapInt32 (T + 1)) 0
    rcases h3 with ⟨h3, -⟩ | ⟨j, b, h3, h4, h5, -⟩
    · rw [h3] at h; cases h
    · rw [h3] at h
      have : i = j := by simpa using h.symm
      subst this
      exact ⟨b, h4, h5⟩
  rw [selectBlock_other T l size s hF hB hW] at h
  cases h

theorem placeBlock_getElem? (l : List MemoryBlock) (i : Nat) (b : MemoryBlock)
    (processName : String) (size : Int) (h : l[i]? = some b) :
    (placeBlock l i processName size)[i]? =
      some { startAddress := b.startAddress, size := size, processName := processName,
             isAllocated := true } := by
  obtain ⟨pre, post, rfl, rfl⟩ := split_at_index l i b h
  rw [placeBlock_append]
  by_cases e : b.size = size
  · rw [if_pos e, getElem?_at_length, e]
  · rw [if_neg e, getElem?_at_length]

theorem allocateMemory_of_select (T : Int) (l : List MemoryBlock) (processName : String)
    (size : Int) (s : Char) (i : Nat) (h : selectBlock T l size s = some i) :
    allocateMemory T l processName size s =
      (placeBlock l i processName size, Output.allocated size processName s) := by
  unfold allocateMemory
  rw [h]

theorem allocateMemory_of_select_none (T : Int) (l : List MemoryBlock) (processName : String)
    (size : Int) (s : Char) (h : selectBlock T l size s = none) :
    allocateMemory T l processName size s = (l, Output.notEnoughMemory processName) := by
  unfold allocateMemory
  rw [h]

theorem selectBlock_first_spec (T : Int) (l : List MemoryBlock) (size : Int)
    (hfit : ∃ c ∈ l, Fits size c) :
    ∃ i b, selectBlock T l size 'F' = some i ∧ l[i]? = some b ∧ Fits size b ∧
      ∀ j c, j < i → l[j]? = some c → ¬ Fits size c := by
  rw [selectBlock_first]
  obtain ⟨-, -, h3⟩ := scanLoop_first size l 0 none none (wrapInt32 (T + 1)) 0
  rcases h3 with ⟨-, h4⟩ | ⟨j, b, h3, h4, h5, h6⟩
  · obtain ⟨c, hc, hf⟩ := hfit
    exact absurd hf (h4 c hc)
  · exact ⟨j, b, by simpa using h3, h4, h5, h6⟩

theorem selectBlock_best_spec (T : Int) (l : List MemoryBlock) (size : Int)
    (hT : ∀ c ∈ l, c.size ≤ T) (hlo : 0 ≤ T) (hmax : T < 2147483647)
    (hfit : ∃ c ∈ l, Fits size c) :
    ∃ i b, selectBlock T l size 'B' = some i ∧ l[i]? = some b ∧ Fits size b ∧
      ∀ j c, l[j]? = some c → Fits size c → b.size ≤ c.size ∧ (j < i → b.size < c.size) := by
  rw [selectBlock_best]
  obtain ⟨-, -, h3⟩ := scanLoop_best size l 0 none none (wrapInt32 (T + 1)) 0
  rcases h3 with ⟨-, h4⟩ | ⟨j, b, h3, h4, h5, -, h7⟩
  · obtain ⟨c, hc, hf⟩ := hfit
    have := h4 c hc hf
    have := hT c hc
    rw [wrapInt32_eq (T + 1) (by omega) (by omega)] at *
    omega
  · exact ⟨j, b, by simpa using h3, h4, h5, h7⟩

theorem selectBlock_worst_spec (T : Int) (l : List MemoryBlock) (size : Int)
    (hs : 0 < size) (hfit : ∃ c ∈ l, Fits size c) :
    ∃ i b, selectBlock T l size 'W' = some i ∧ l[i]? = some b ∧ Fits size b ∧
      ∀ j c, l[j]? = some c → Fits size c → c.size ≤ b.size ∧ (j < i → c.size < b.size) := by
  rw [selectBlock_worst]
  obtain ⟨-, -, h3⟩ := scanLoop_worst size l 0 none none (wrapInt32 (T + 1)) 0
  rcases h3 with ⟨-, h4⟩ | ⟨j, b, h3, h4, h5, -, h7⟩
  · obtain ⟨c, hc, hf⟩ := hfit
    have := h4 c hc hf
    have := hf.2
    omega
  · exact ⟨j, b, by simpa using h3, h4, h5, h7⟩

theorem tilesFrom_cons_iff (a c : Int) (x : MemoryBlock) (rest : List MemoryBlock) :
    TilesFrom a (x :: rest) c ↔
      (∀ b ∈ x :: rest, 0 < b.size) ∧ x.startAddress = a ∧
      (∀ i b d, (x :: rest)[i]? = some b → (x :: rest)[i + 1]? = some d →
        b.startAddress + b.size = d.startAddress) ∧
      (∀ b, (x :: rest).getLast? = some b → b.startAddress + b.size = c) := by
  induction rest generalizing a x with
  | nil =>
    show (x.startAddress = a ∧ 0 < x.size ∧ a + x.size = c) ↔ _
    constructor
    · rintro ⟨h1, h2, h3⟩
      refine ⟨by simpa using h2, h1, ?_, ?_⟩
      · intro i b d _ hd
        simp at hd
      · intro b hb
        simp at hb
        subst hb
        omega
    · rintro ⟨h1, h2, -, h4⟩
      have := h4 x (by simp)
      exact ⟨h2, h1 x (by simp), by omega⟩
  | cons y rest ih =>
    show (x.startAddress = a ∧ 0 < x.size ∧ TilesFrom (a + x.size) (y :: rest) c) ↔ _
    rw [ih]
    constructor
    · rintro ⟨h1, h2, h3, h4, h5, h6⟩
      refine ⟨?_, h1, ?_, ?_⟩
      · intro b hb
        rcases List.mem_cons.1 hb with rfl | hb
        · exact h2
        · exact h3 b hb
      · intro i b d hb hd
        cases i with
        | zero =>
          simp at hb hd
          subst hb hd
          omega
        | succ i =>
          rw [List.getElem?_cons_succ] at hb hd
          exact h5 i b d hb hd
      · intro b hb
        apply h6 b
        simpa using hb
    · rintro ⟨h1, h2, h3, h4⟩
      refine ⟨h2, h1 x (by simp), ?_, ?_, ?_, ?_⟩
      · intro b hb
        exact h1 b (List.mem_cons_of_mem _ hb)
      · have := h3 0 x y (by simp) (by simp)
        omega
      · intro i b d hb hd
        exact h3 (i + 1) b d (by simpa using hb) (by simpa using hd)
      · intro b hb
        apply h4 b
        simpa using hb

/-- The tiling invariant, stated block by block, is the end-to-end tiling of `[0, N)`. -/
theorem tilingInvariant_iff (N : Int) (l : List MemoryBlock) :
    TilingInvariant N l ↔ l ≠ [] ∧ TilesFrom 0 l N := by
  cases l with
  | nil => simp [TilingInvariant]
  | cons x rest =>
    rw [tilesFrom_cons_iff]
    unfold TilingInvariant
    simp only [ne_eq, reduceCtorEq, not_false_eq_true, true_and, List.head?_cons,
      Option.some.injEq, forall_eq']

theorem tilingInvariant_size_le (N : Int) (l : List MemoryBlock) (h : TilingInvariant N l) :
    ∀ b ∈ l, 0 < b.size ∧ b.size ≤ N := by
  intro b hb
  have := tilesFrom_bounds 0 N l ((tilingInvariant_iff N l).1 h).2 b hb
  omega

theorem compactLoop_tiles (l : List MemoryBlock) (newList : List MemoryBlock)
    (addr free a c : Int) (hacc : TilesFrom 0 newList addr) (hl : TilesFrom a l c)
    (hfree : 0 ≤ free) :
    TilesFrom 0 (compactLoop l newList addr free).1 (compactLoop l newList addr free).2.1 ∧
    (compactLoop l newList addr free).2.1 + (compactLoop l newList addr free).2.2 =
      addr + free + (c - a) ∧
    0 ≤ (compactLoop l newList addr free).2.2 := by
  induction l generalizing newList addr free a with
  | nil =>
    have : a = c := hl
    simp only [compactLoop]
    exact ⟨hacc, by omega, hfree⟩
  | cons x rest ih =>
    obtain ⟨h1, h2, h3⟩ := hl
    by_cases hx : x.isAllocated = true
    · have e : compactLoop (x :: rest) newList addr free =
          compactLoop rest
            (newList ++ [{ startAddress := addr, size := x.size, processName := x.processName,
                           isAllocated := true }]) (addr + x.size) free := by
        simp [compactLoop, hx]
      rw [e]
      have hacc' : TilesFrom 0
          (newList ++ [{ startAddress := addr, size := x.size, processName := x.processName,
                         isAllocated := true }]) (addr + x.size) := by
        rw [tilesFrom_append]
        exact ⟨addr, hacc, rfl, h2, rfl⟩
      obtain ⟨k1, k2, k3⟩ := ih _ (addr + x.size) free (a + x.size) hacc' h3 hfree
      exact ⟨k1, by omega, k3⟩
    · have e : compactLoop (x :: rest) newList addr free =
          compactLoop rest newList addr (free + x.size) := by
        simp [compactLoop, hx]
      rw [e]
      obtain ⟨k1, k2, k3⟩ := ih newList addr (free + x.size) (a + x.size) hacc h3 (by omega)
      exact ⟨k1, by omega, k3⟩

theorem tilesFrom_compact (N : Int) (l : List MemoryBlock) (h : TilesFrom 0 l N) :
    TilesFrom 0 (compactMemory l).1 N := by
  obtain ⟨k1, k2, k3⟩ := compactLoop_tiles l [] 0 0 0 N rfl h (le_refl _)
  unfold compactMemory
  by_cases hf : (compactLoop l [] 0 0).2.2 > 0
  · simp only [hf, if_true]
    rw [tilesFrom_append]
    refine ⟨_, k1, rfl, hf, ?_⟩
    show (compactLoop l [] 0 0).2.1 + (compactLoop l [] 0 0).2.2 = N
    omega
  · simp only [hf, if_false]
    have : (compactLoop l [] 0 0).2.1 = N := by omega
    rw [this] at k1
    exact k1

theorem findProcess_sound (processName : String) (l : List MemoryBlock) (i : Nat)
    (h : findProcess processName l = some i) :
    ∃ b, l[i]? = some b ∧ b.isAllocated = true ∧ b.processName = processName ∧
      ∀ j c, j < i → l[j]? = some c → ¬ (c.isAllocated = true ∧ c.processName = processName) := by
  induction l generalizing i with
  | nil => simp [findProcess] at h
  | cons x rest ih =>
    by_cases hx : x.isAllocated = true ∧ x.processName = processName
    · simp only [findProcess, hx, and_self, if_true, Option.some.injEq] at h
      subst h
      refine ⟨x, by simp, hx.1, hx.2, ?_⟩
      intro j c hj
      omega
    · simp only [findProcess, hx, if_false, Option.map_eq_some'] at h
      obtain ⟨k, hk, rfl⟩ := h
      obtain ⟨b, h1, h2, h3, h4⟩ := ih k hk
      refine ⟨b, by simpa using h1, h2, h3, ?_⟩
      intro j c hj hc
      cases j with
      | zero =>
        simp at hc
        subst hc
        exact hx
      | succ j =>
        simp at hc
        exact h4 j c (by omega) hc

theorem tilesFrom_releaseBlock (N : Int) (l : List MemoryBlock) (i : Nat)
    (h : TilesFrom 0 l N) : TilesFrom 0 (releaseBlock l i) N := by
  cases hb : l[i]? with
  | none =>
    unfold releaseBlock
    rw [hb]
    exact h
  | some b =>
    obtain ⟨pre, post, rfl, rfl⟩ := split_at_index l i b hb
    rcases List.eq_nil_or_concat pre with rfl | ⟨pre', pv, rfl⟩
    · exact tilesFrom_release_head N b post h
    · have e : pre'.concat pv ++ b :: post = pre' ++ pv :: b :: post := by simp
      have e2 : (pre'.concat pv).length = pre'.length + 1 := by simp
      rw [e] at h ⊢
      rw [e2]
      exact tilesFrom_release_inner 0 N pre' pv b post h

theorem tilesFrom_step (N : Int) (l : List MemoryBlock) (op : Op)
    (hop : ∀ p s c, op = Op.allocate p s c → 0 < s) (h : TilesFrom 0 l N) :
    TilesFrom 0 (step N l op) N := by
  cases op with
  | allocate p s c =>
    show TilesFrom 0 (allocateMemory N l p s c).1 N
    cases hsel : selectBlock N l s c with
    | none => rw [allocateMemory_of_select_none N l p s c hsel]; exact h
    | some i =>
      rw [allocateMemory_of_select N l p s c i hsel]
      obtain ⟨b, hb, hf⟩ := selectBlock_sound N l s c i hsel
      obtain ⟨pre, post, rfl, rfl⟩ := split_at_index l i b hb
      exact tilesFrom_place 0 N pre b post p s (hop p s c rfl) hf.2 h
  | release p =>
    show TilesFrom 0 (releaseMemory l p).1 N
    unfold releaseMemory
    cases hfind : findProcess p l with
    | none => exact h
    | some i => exact tilesFrom_releaseBlock N l i h
  | compact => exact tilesFrom_compact N l h

theorem tilesFrom_foldl (N : Int) (ops : List Op) (l : List MemoryBlock)
    (hops : ∀ op ∈ ops, ∀ p s c, op = Op.allocate p s c → 0 < s) (h : TilesFrom 0 l N) :
    TilesFrom 0 (ops.foldl (step N) l) N := by
  induction ops generalizing l with
  | nil => exact h
  | cons op ops ih =>
    simp only [List.foldl_cons]
    apply ih
    · intro o ho
      exact hops o (List.mem_cons_of_mem _ ho)
    · exact tilesFrom_step N l op (hops op (List.mem_cons_self _ _)) h

theorem chain_replace_last (pre : List MemoryBlock) (a a' : MemoryBlock)
    (hflag : a'.isAllocated = false → a.isAllocated = false)
    (h : List.Chain' NotBothFree (pre ++ [a])) : List.Chain' NotBothFree (pre ++ [a']) := by
  rw [List.chain'_append] at h ⊢
  obtain ⟨h1, -, h3⟩ := h
  refine ⟨h1, List.chain'_singleton _, ?_⟩
  intro x hx y hy
  have hy' : y = a' := by simpa using hy.symm
  subst hy'
  have := h3 x hx a (by simp)
  intro hboth
  exact this ⟨hboth.1, hflag hboth.2⟩

theorem chain_replace_head (post : List MemoryBlock) (a a' : MemoryBlock)
    (hflag : a'.isAllocated = false → a.isAllocated = false)
    (h : List.Chain' NotBothFree (a :: post)) : List.Chain' NotBothFree (a' :: post) := by
  rw [List.chain'_cons'] at h ⊢
  refine ⟨?_, h.2⟩
  intro y hy hboth
  exact h.1 y hy ⟨hflag hboth.1, hboth.2⟩

theorem chain_placeBlock (l : List MemoryBlock) (i : Nat) (processName : String) (size : Int)
    (h : List.Chain' NotBothFree l) :
    List.Chain' NotBothFree (placeBlock l i processName size) := by
  cases hb : l[i]? with
  | none =>
    unfold placeBlock
    rw [hb]
    exact h
  | some b =>
    obtain ⟨pre, post, rfl, rfl⟩ := split_at_index l i b hb
    rw [placeBlock_append]
    rw [List.chain'_split] at h
    by_cases e : b.size = size
    · rw [if_pos e, List.chain'_split]
      exact ⟨chain_replace_last pre b _ (fun k => by simp at k) h.1,
        chain_replace_head post b _ (fun k => by simp at k) h.2⟩
    · rw [if_neg e, List.chain'_append_cons_cons]
      refine ⟨chain_replace_last pre b _ (fun k => by simp at k) h.1, ?_,
        chain_replace_head post b _ (fun k => k) h.2⟩
      intro hboth
      simp at hboth

theorem chain_mergeNext (cur : MemoryBlock) (post : List MemoryBlock)
    (h : List.Chain' NotBothFree (cur :: post)) :
    List.Chain' NotBothFree ((mergeNext (freed cur) post).1 :: (mergeNext (freed cur) post).2) := by
  cases post with
  | nil => exact List.chain'_singleton _
  | cons nx post =>
    rw [List.chain'_cons] at h
    by_cases e : nx.isAllocated = false
    · have e' : mergeNext (freed cur) (nx :: post) =
          ({ freed cur with size := (freed cur).size + nx.size }, post) := by
        simp [mergeNext, e]
      rw [e']
      exact chain_replace_head post nx _ (fun _ => e) h.2
    · have e' : mergeNext (freed cur) (nx :: post) = (freed cur, nx :: post) := by
        simp [mergeNext, e]
      rw [e', List.chain'_cons]
      refine ⟨?_, h.2⟩
      intro hboth
      exact e hboth.2

theorem chain_releaseBlock (l : List MemoryBlock) (i : Nat)
    (h : List.Chain' NotBothFree l) : List.Chain' NotBothFree (releaseBlock l i) := by
  cases hb : l[i]? with
  | none =>
    unfold releaseBlock
    rw [hb]
    exact h
  | some b =>
    obtain ⟨pre, post, rfl, rfl⟩ := split_at_index l i b hb
    rcases List.eq_nil_or_concat pre with rfl | ⟨pre', pv, rfl⟩
    · show List.Chain' NotBothFree (releaseBlock (b :: post) 0)
      rw [releaseBlock_head]
      exact chain_replace_head _ (mergeNext (freed b) post).1 _ (fun k => k)
        (chain_mergeNext b post h)
    · have e : pre'.concat pv ++ b :: post = pre' ++ pv :: b :: post := by simp
      have e2 : (pre'.concat pv).length = pre'.length + 1 := by simp
      rw [e] at h ⊢
      rw [e2, releaseBlock_inner]
      rw [List.chain'_append_cons_cons] at h
      have hm := chain_mergeNext b post h.2.2
      by_cases hp : pv.isAllocated = false
      · rw [if_pos hp, List.chain'_split]
        refine ⟨chain_replace_last pre' pv _ (fun k => k) h.1, ?_⟩
        refine chain_replace_head _ _ _ ?_ hm
        intro _
        cases post with
        | nil => rfl
        | cons nx post =>
          by_cases e : nx.isAllocated = false <;> simp [mergeNext, freed, e]
      · rw [if_neg hp, List.chain'_append_cons_cons]
        refine ⟨h.1, ?_, hm⟩
        intro hboth
        exact hp hboth.1

theorem compactLoop_allocated (l newList : List MemoryBlock) (addr free : Int)
    (h : ∀ b ∈ newList, b.isAllocated = true) :
    ∀ b ∈ (compactLoop l newList addr free).1, b.isAllocated = true := by
  induction l generalizing newList addr free with
  | nil => exact h
  | cons x rest ih =>
    by_cases hx : x.isAllocated = true
    · have e : compactLoop (x :: rest) newList addr free =
          compactLoop rest
            (newList ++ [{ startAddress := addr, size := x.size, processName := x.processName,
                           isAllocated := true }]) (addr + x.size) free := by
        simp [compactLoop, hx]
      rw [e]
      apply ih
      intro b hb
      rcases List.mem_append.1 hb with hb | hb
      · exact h b hb
      · simp at hb
        rw [hb]
    · have e : compactLoop (x :: rest) newList addr free =
          compactLoop rest newList addr (free + x.size) := by
        simp [compactLoop, hx]
      rw [e]
      exact ih newList addr (free + x.size) h

theorem chain_of_allocated (l : List MemoryBlock) (h : ∀ b ∈ l, b.isAllocated = true) :
    List.Chain' NotBothFree l := by
  induction l with
  | nil => exact List.chain'_nil
  | cons x rest ih =>
    rw [List.chain'_cons']
    refine ⟨?_, ih (fun b hb => h b (List.mem_cons_of_mem _ hb))⟩
    intro y _ hboth
    have := h x (List.mem_cons_self _ _)
    rw [this] at hboth
    simp at hboth

theorem chain_compactMemory (l : List MemoryBlock) :
    List.Chain' NotBothFree (compactMemory l).1 := by
  have hall := compactLoop_allocated l [] 0 0 (by simp)
  unfold compactMemory
  by_cases hf : (compactLoop l [] 0 0).2.2 > 0
  · simp only [hf, if_true]
    rw [List.chain'_append]
    refine ⟨chain_of_allocated _ hall, List.chain'_singleton _, ?_⟩
    intro x hx y _ hboth
    have := hall x (List.mem_of_mem_getLast? hx)
    rw [this] at hboth
    simp at hboth
  · simp only [hf, if_false]
    exact chain_of_allocated _ hall

theorem chain_step (T : Int) (l : List MemoryBlock) (op : Op)
    (h : List.Chain' NotBothFree l) : List.Chain' NotBothFree (step T l op) := by
  cases op with
  | allocate p s c =>
    show List.Chain' NotBothFree (allocateMemory T l p s c).1
    unfold allocateMemory
    cases hsel : selectBlock T l s c with
    | none => exact h
    | some i => exact chain_placeBlock l i p s h
  | release p =>
    show List.Chain' NotBothFree (releaseMemory l p).1
    unfold releaseMemory
    cases hfind : findProcess p l with
    | none => exact h
    | some i => exact chain_releaseBlock l i h
  | compact => exact chain_compactMemory l

theorem chain_foldl (T : Int) (ops : List Op) (l : List MemoryBlock)
    (h : List.Chain' NotBothFree l) : List.Chain' NotBothFree (ops.foldl (step T) l) := by
  induction ops generalizing l with
  | nil => exact h
  | cons op ops ih =>
    simp only [List.foldl_cons]
    exact ih _ (chain_step T l op h)

theorem selectBlock_isSome_iff (T : Int) (l : List MemoryBlock) (size : Int) (s : Char)
    (hT : ∀ c ∈ l, c.size ≤ T) (hmax : T < 2147483647) (hs : 0 < size)
    (hstrat : s = 'F' ∨ s = 'B' ∨ s = 'W') :
    (∃ i, selectBlock T l size s = some i) ↔ ∃ c ∈ l, Fits size c := by
  constructor
  · rintro ⟨i, hi⟩
    obtain ⟨b, hb, hf⟩ := selectBlock_sound T l size s i hi
    exact ⟨b, List.getElem?_mem hb, hf⟩
  · intro hfit
    rcases hstrat with rfl | rfl | rfl
    · obtain ⟨i, -, h, -⟩ := selectBlock_first_spec T l size hfit
      exact ⟨i, h⟩
    · have hlo : 0 ≤ T := by
        obtain ⟨c, hc, hf⟩ := hfit
        have := hT c hc
        have := hf.2
        omega
      obtain ⟨i, -, h, -⟩ := selectBlock_best_spec T l size hT hlo hmax hfit
      exact ⟨i, h⟩
    · obtain ⟨i, -, h, -⟩ := selectBlock_worst_spec T l size hs hfit
      exact ⟨i, h⟩

theorem findProcess_skip (processName : String) (pre rest : List MemoryBlock)
    (h : ∀ c ∈ pre, ¬ (c.isAllocated = true ∧ c.processName = processName)) :
    findProcess processName (pre ++ rest) =
      (findProcess processName rest).map (· + pre.length) := by
  induction pre with
  | nil => simp
  | cons x pre ih =>
    have hx := h x (List.mem_cons_self _ _)
    have ih' := ih (fun c hc => h c (List.mem_cons_of_mem _ hc))
    have e : findProcess processName (x :: (pre ++ rest)) =
        (findProcess processName (pre ++ rest)).map (· + 1) := by
      simp only [findProcess, hx, if_false]
    rw [List.cons_append, e, ih']
    cases findProcess processName rest with
    | none => rfl
    | some k => simp only [Option.map_some', List.length_cons, Nat.add_assoc]

theorem findProcess_none (processName : String) (l : List MemoryBlock)
    (h : ∀ c ∈ l, c.isAllocated = true → c.processName ≠ processName) :
    findProcess processName l = none := by
  induction l with
  | nil => rfl
  | cons x rest ih =>
    have hx : ¬ (x.isAllocated = true ∧ x.processName = processName) :=
      fun k => h x (List.mem_cons_self _ _) k.1 k.2
    simp only [findProcess, hx, if_false, ih (fun c hc => h c (List.mem_cons_of_mem _ hc)),
      Option.map_none']

theorem allocatedTo_append (processName : String) (l1 l2 : List MemoryBlock) :
    allocatedTo processName (l1 ++ l2) =
      allocatedTo processName l1 ++ allocatedTo processName l2 := by
  simp [allocatedTo]

theorem allocatedTo_length_place (pre : List MemoryBlock) (b : MemoryBlock)
    (post : List MemoryBlock) (processName : String) (size : Int)
    (hb : b.isAllocated = false) :
    (allocatedTo processName (placeBlock (pre ++ b :: post) pre.length processName size)).length =
      (allocatedTo processName (pre ++ b :: post)).length + 1 := by
  rw [placeBlock_append]
  by_cases e : b.size = size
  · rw [if_pos e, allocatedTo_append, allocatedTo_append]
    simp [allocatedTo, hb, List.filter_cons]
    omega
  · rw [if_neg e, allocatedTo_append, allocatedTo_append]
    simp [allocatedTo, hb, List.filter_cons]
    omega

/-- C4, evaluation at `totalMemorySize = INT_MAX`: on the fresh space
`[0, 2147483647)` the only block is free, its size lies between 1 and
`totalMemorySize`, and it would hold a request of 10; but `bestFitSize` starts as
the `int` value of `totalMemorySize + 1`, which has wrapped to `-2147483648`, so
with strategy `'B'` no block is ever below it: nothing is selected, the call
reports not enough memory and leaves the list unchanged, while `'F'` and `'W'`
select position 0. -/
theorem bestFit_at_intMax :
    (∀ c ∈ initializeMemory 2147483647, 1 ≤ c.size ∧ c.size ≤ 2147483647) ∧
    (∃ c ∈ initializeMemory 2147483647, Fits 10 c) ∧
    wrapInt32 (2147483647 + 1) = -2147483648 ∧
    selectBlock 2147483647 (initializeMemory 2147483647) 10 'B' = none ∧
    allocateMemory 2147483647 (initializeMemory 2147483647) "P" 10 'B' =
      (initializeMemory 2147483647, Output.notEnoughMemory "P") ∧
    selectBlock 2147483647 (initializeMemory 2147483647) 10 'F' = some 0 ∧
    selectBlock 2147483647 (initializeMemory 2147483647) 10 'W' = some 0 := by
  decide

/-- Best fit below `INT_MAX`: when every block size lies between 1 and
`totalMemorySize`, `totalMemorySize < INT_MAX` and some free block is at least
`size` long, `allocateMemory` with strategy `'B'` selects a free block of
sufficient size whose size is minimal among all such blocks, and every such
block before it is strictly larger (the earliest block of minimal size is
taken); the request, for a name that fits the name field, is placed at that
position. -/
theorem allocateMemory_bestFit (T : Int) (l : List MemoryBlock) (processName : String)
    (size : Int) (hT : ∀ c ∈ l, 1 ≤ c.size ∧ c.size ≤ T) (hmax : T < 2147483647)
    (_hname : NameFits processName) (hfit : ∃ c ∈ l, Fits size c) :
    ∃ i b, l[i]? = some b ∧ Fits size b ∧
      (∀ j c, l[j]? = some c → Fits size c → b.size ≤ c.size ∧ (j < i → b.size < c.size)) ∧
      selectBlock T l size 'B' = some i ∧
      allocateMemory T l processName size 'B' =
        (placeBlock l i processName size, Output.allocated size processName 'B') ∧
      (allocateMemory T l processName size 'B').1[i]? =
        some { startAddress := b.startAddress, size := size, processName := processName,
               isAllocated := true } := by
  have hlo : 0 ≤ T := by
    obtain ⟨c, hc, -⟩ := hfit
    have := hT c hc
    omega
  obtain ⟨i, b, h1, h2, h3, h4⟩ :=
    selectBlock_best_spec T l size (fun c hc => (hT c hc).2) hlo hmax hfit
  refine ⟨i, b, h2, h3, h4, h1, allocateMemory_of_select T l processName size 'B' i h1, ?_⟩
  rw [allocateMemory_of_select T l processName size 'B' i h1]
  exact placeBlock_getElem? l i b processName size h2

/-- Instance of best fit below `INT_MAX`: free blocks 30 at 0, 10 at 30, 60 at 40
(total 100); a request of 10 with `'B'` selects position 1, the 10-byte block at 30. -/
theorem allocateMemory_bestFit_witness :
    selectBlock 100 threeFreeBlocks 10 'B' = some 1 ∧
    (allocateMemory 100 threeFreeBlocks "P" 10 'B').1[1]? =
      some { startAddress := 30, size := 10, processName := "P", isAllocated := true } ∧
    ∃ i b, threeFreeBlocks[i]? = some b ∧ Fits 10 b ∧
      (∀ j c, threeFreeBlocks[j]? = some c → Fits 10 c →
        b.size ≤ c.size ∧ (j < i → b.size < c.size)) ∧
      selectBlock 100 threeFreeBlocks 10 'B' = some i ∧
      allocateMemory 100 threeFreeBlocks "P" 10 'B' =
        (placeBlock threeFreeBlocks i "P" 10, Output.allocated 10 "P" 'B') ∧
      (allocateMemory 100 threeFreeBlocks "P" 10 'B').1[i]? =
        some { startAddress := b.startAddress, size := 10, processName := "P",
               isAllocated := true } :=
  ⟨by decide, by decide,
    allocateMemory_bestFit 100 threeFreeBlocks "P" 10 (by decide) (by decide) (by decide)
      (by decide)⟩

/-- Placement for a name that fits the name field and a request `size > 0`:
when `allocateMemory` selects position `i`, the
list splits as `pre ++ b :: post` around the selected free block `b` of size at
least `size`, the call reports success, and the new list is `pre` and `post`
unchanged with `b` replaced, on an exact fit, by one allocated block with `b`'s
start and size and the new owner (same block count), and otherwise by an
allocated block of the requested size at `b`'s start followed by a free block
that starts `size` later and is `size` shorter (one block more). -/
theorem allocateMemory_placement (T : Int) (l : List MemoryBlock) (processName : String)
    (size : Int) (s : Char) (i : Nat) (_hname : NameFits processName) (_hs : 0 < size)
    (hsel : selectBlock T l size s = some i) :
    ∃ pre b post, l = pre ++ b :: post ∧ pre.length = i ∧ Fits size b ∧
      (allocateMemory T l processName size s).2 = Output.allocated size processName s ∧
      (b.size = size →
        (allocateMemory T l processName size s).1 =
          pre ++ { startAddress := b.startAddress, size := b.size, processName := processName,
                   isAllocated := true } :: post ∧
        (allocateMemory T l processName size s).1.length = l.length) ∧
      (b.size ≠ size →
        size < b.size ∧
        (allocateMemory T l processName size s).1 =
          pre ++ { startAddress := b.startAddress, size := size, processName := processName,
                   isAllocated := true } ::
            { startAddress := b.startAddress + size, size := b.size - size,
              processName := b.processName, isAllocated := false } :: post ∧
        (allocateMemory T l processName size s).1.length = l.length + 1) := by
  obtain ⟨b, hb, hf⟩ := selectBlock_sound T l size s i hsel
  obtain ⟨pre, post, rfl, rfl⟩ := split_at_index l i b hb
  rw [allocateMemory_of_select T _ processName size s _ hsel, placeBlock_append]
  refine ⟨pre, b, post, rfl, rfl, hf, rfl, ?_, ?_⟩
  · intro e
    rw [if_pos e]
    exact ⟨rfl, by simp⟩
  · intro e
    rw [if_neg e]
    refine ⟨lt_of_le_of_ne hf.2 (Ne.symm e), ?_, by simp; omega⟩
    rw [hf.1]

/-- Instance of the placement: on a fresh space of 100, RQ P 10 F selects position 0 and
splits the free block. -/
theorem allocateMemory_placement_witness :
    selectBlock 100 (initializeMemory 100) 10 'F' = some 0 ∧
    ∃ pre b post, initializeMemory 100 = pre ++ b :: post ∧ pre.length = 0 ∧ Fits 10 b ∧
      (allocateMemory 100 (initializeMemory 100) "P" 10 'F').2 = Output.allocated 10 "P" 'F' ∧
      (b.size = 10 →
        (allocateMemory 100 (initializeMemory 100) "P" 10 'F').1 =
          pre ++ { startAddress := b.startAddress, size := b.size, processName := "P",
                   isAllocated := true } :: post ∧
        (allocateMemory 100 (initializeMemory 100) "P" 10 'F').1.length =
          (initializeMemory 100).length) ∧
      (b.size ≠ 10 →
        10 < b.size ∧
        (allocateMemory 100 (initializeMemory 100) "P" 10 'F').1 =
          pre ++ { startAddress := b.startAddress, size := 10, processName := "P",
                   isAllocated := true } ::
            { startAddress := b.startAddress + 10, size := b.size - 10,
              processName := b.processName, isAllocated := false } :: post ∧
        (allocateMemory 100 (initializeMemory 100) "P" 10 'F').1.length =
          (initializeMemory 100).length + 1) :=
  ⟨by decide,
    allocateMemory_placement 100 (initializeMemory 100) "P" 10 'F' 0 (by decide) (by decide)
      (by decide)⟩

/-- C7, evaluation at `totalMemorySize = INT_MAX`: the fresh space
`[0, 2147483647)` satisfies the tiling invariant and its free block holds a
request of 10, yet with strategy `'B'` `allocateMemory` reports not enough
memory, while with `'F'` and with `'W'` the same request succeeds. -/
theorem noSuitableBlock_at_intMax :
    TilingInvariant 2147483647 (initializeMemory 2147483647) ∧
    (∃ c ∈ initializeMemory 2147483647, Fits 10 c) ∧
    (allocateMemory 2147483647 (initializeMemory 2147483647) "P" 10 'B').2 =
      Output.notEnoughMemory "P" ∧
    (allocateMemory 2147483647 (initializeMemory 2147483647) "P" 10 'F').2 =
      Output.allocated 10 "P" 'F' ∧
    (allocateMemory 2147483647 (initializeMemory 2147483647) "P" 10 'W').2 =
      Output.allocated 10 "P" 'W' :=
  ⟨(tilingInvariant_iff 2147483647 _).2 ⟨by decide, by decide⟩, by decide, by decide,
    by decide, by decide⟩

/-- No suitable block, below `INT_MAX`: in a state satisfying the tiling
invariant for `totalMemorySize < INT_MAX`, for `size > 0` and a strategy among `'F'`, `'B'`, `'W'`,
`allocateMemory` reports not enough memory exactly when no free block is at
least `size` long, it then leaves the list unchanged, and it succeeds under the
given strategy exactly when it succeeds under any other of the three. -/
theorem allocateMemory_fails_iff (T : Int) (l : List MemoryBlock) (processName : String)
    (size : Int) (s : Char) (hinv : TilingInvariant T l) (hmax : T < 2147483647)
    (hs : 0 < size) (hstrat : s = 'F' ∨ s = 'B' ∨ s = 'W') :
    ((allocateMemory T l processName size s).2 = Output.notEnoughMemory processName ↔
      ¬ ∃ c ∈ l, Fits size c) ∧
    ((¬ ∃ c ∈ l, Fits size c) →
      allocateMemory T l processName size s = (l, Output.notEnoughMemory processName)) ∧
    (∀ s', s' = 'F' ∨ s' = 'B' ∨ s' = 'W' →
      ((allocateMemory T l processName size s).2 = Output.allocated size processName s ↔
        (allocateMemory T l processName size s').2 = Output.allocated size processName s')) := by
  have hT : ∀ c ∈ l, c.size ≤ T := fun c hc => (tilingInvariant_size_le T l hinv c hc).2
  have key : ∀ t, t = 'F' ∨ t = 'B' ∨ t = 'W' →
      ((allocateMemory T l processName size t).2 = Output.allocated size processName t ↔
        ∃ c ∈ l, Fits size c) ∧
      ((allocateMemory T l processName size t).2 = Output.notEnoughMemory processName ↔
        ¬ ∃ c ∈ l, Fits size c) ∧
      ((¬ ∃ c ∈ l, Fits size c) →
        allocateMemory T l processName size t = (l, Output.notEnoughMemory processName)) := by
    intro t ht
    have hiff := selectBlock_isSome_iff T l size t hT hmax hs ht
    cases hsel : selectBlock T l size t with
    | none =>
      have hno : ¬ ∃ c ∈ l, Fits size c := by
        intro hfit
        obtain ⟨i, hi⟩ := hiff.2 hfit
        rw [hsel] at hi
        cases hi
      rw [allocateMemory_of_select_none T l processName size t hsel]
      exact ⟨⟨fun h => Output.noConfusion h, fun h => absurd h hno⟩,
        ⟨fun _ => hno, fun _ => rfl⟩, fun _ => rfl⟩
    | some i =>
      have hyes : ∃ c ∈ l, Fits size c := hiff.1 ⟨i, hsel⟩
      rw [allocateMemory_of_select T l processName size t i hsel]
      exact ⟨⟨fun _ => hyes, fun _ => rfl⟩,
        ⟨fun h => Output.noConfusion h, fun h => absurd hyes h⟩, fun h => absurd hyes h⟩
  refine ⟨(key s hstrat).2.1, (key s hstrat).2.2, ?_⟩
  intro s' hs'
  rw [(key s hstrat).1, (key s' hs').1]

/-- Instance below `INT_MAX`: space of 100 holding `A` in `[0, 60)` and a free block
`[60, 100)`; a request of 50 with `'B'`. -/
theorem allocateMemory_fails_iff_witness :
    ((allocateMemory 100 (run 100 [Op.allocate "A" 60 'F']) "P" 50 'B').2 =
        Output.notEnoughMemory "P" ↔
      ¬ ∃ c ∈ run 100 [Op.allocate "A" 60 'F'], Fits 50 c) ∧
    ((¬ ∃ c ∈ run 100 [Op.allocate "A" 60 'F'], Fits 50 c) →
      allocateMemory 100 (run 100 [Op.allocate "A" 60 'F']) "P" 50 'B' =
        (run 100 [Op.allocate "A" 60 'F'], Output.notEnoughMemory "P")) ∧
    (∀ s', s' = 'F' ∨ s' = 'B' ∨ s' = 'W' →
      ((allocateMemory 100 (run 100 [Op.allocate "A" 60 'F']) "P" 50 'B').2 =
          Output.allocated 50 "P" 'B' ↔
        (allocateMemory 100 (run 100 [Op.allocate "A" 60 'F']) "P" 50 s').2 =
          Output.allocated 50 "P" s')) :=
  allocateMemory_fails_iff 100 (run 100 [Op.allocate "A" 60 'F']) "P" 50 'B'
    ((tilingInvariant_iff 100 _).2 ⟨by decide, by decide⟩) (by decide) (by decide)
    (Or.inr (Or.inl rfl))

/-- C8, the claim as stated fails: on a fresh space of 100, after RQ A 10 F the
block `[0, 10)` is allocated to `A`, and a second RQ A 10 F reports success and
changes the list to `[0:10 A, 10:10 A, 20:80 free]`. -/
theorem duplicateOwner_counterexample :
    (∃ c ∈ run 100 [Op.allocate "A" 10 'F'], c.isAllocated = true ∧ c.processName = "A") ∧
    allocateMemory 100 (run 100 [Op.allocate "A" 10 'F']) "A" 10 'F' =
      ([{ startAddress := 0, size := 10, processName := "A", isAllocated := true },
        { startAddress := 10, size := 10, processName := "A", isAllocated := true },
        { startAddress := 20, size := 80, processName := "", isAllocated := false }],
       Output.allocated 10 "A" 'F') ∧
    (allocateMemory 100 (run 100 [Op.allocate "A" 10 'F']) "A" 10 'F').1 ≠
      run 100 [Op.allocate "A" 10 'F'] := by
  decide

/-- C8 as amended: `allocateMemory` makes no owner check.  In a state satisfying
the tiling invariant for `totalMemorySize < INT_MAX` in which some allocated
block is already labelled `A`, `A` a name that fits the name field, a request
`allocateMemory(A, size, strategy)` with `size > 0` and a strategy among `'F'`,
`'B'`, `'W'` succeeds whenever a free block of sufficient size exists: it
reports the allocation, changes the list, and the number of allocated blocks
labelled `A` grows by one (to at least two). -/
theorem allocateMemory_duplicate_owner_succeeds (T : Int) (l : List MemoryBlock)
    (A : String) (size : Int) (s : Char)
    (hdup : ∃ c ∈ l, c.isAllocated = true ∧ c.processName = A) (_hname : NameFits A)
    (hinv : TilingInvariant T l) (hmax : T < 2147483647) (hs : 0 < size)
    (hstrat : s = 'F' ∨ s = 'B' ∨ s = 'W') (hfit : ∃ c ∈ l, Fits size c) :
    (allocateMemory T l A size s).2 = Output.allocated size A s ∧
    (allocatedTo A (allocateMemory T l A size s).1).length = (allocatedTo A l).length + 1 ∧
    2 ≤ (allocatedTo A (allocateMemory T l A size s).1).length ∧
    (allocateMemory T l A size s).1 ≠ l := by
  have hT : ∀ c ∈ l, c.size ≤ T := fun c hc => (tilingInvariant_size_le T l hinv c hc).2
  obtain ⟨i, hsel⟩ := (selectBlock_isSome_iff T l size s hT hmax hs hstrat).2 hfit
  obtain ⟨b, hb, hf⟩ := selectBlock_sound T l size s i hsel
  obtain ⟨pre, post, rfl, rfl⟩ := split_at_index l i b hb
  rw [allocateMemory_of_select T _ A size s _ hsel]
  have hcount := allocatedTo_length_place pre b post A size hf.1
  have hone : 1 ≤ (allocatedTo A (pre ++ b :: post)).length := by
    obtain ⟨c, hc, h1, h2⟩ := hdup
    have hmem : c ∈ allocatedTo A (pre ++ b :: post) := by
      simp only [allocatedTo, List.mem_filter]
      exact ⟨hc, by simp [h1, h2]⟩
    exact List.length_pos_of_mem hmem
  refine ⟨rfl, hcount, by simp only; omega, ?_⟩
  intro e
  have e' : placeBlock (pre ++ b :: post) pre.length A size = pre ++ b :: post := e
  rw [e'] at hcount
  omega

/-- Witness for C8 as amended: the second RQ A 10 F on a fresh space of 100. -/
theorem allocateMemory_duplicate_owner_succeeds_witness :
    (∃ c ∈ run 100 [Op.allocate "A" 10 'F'], c.isAllocated = true ∧ c.processName = "A") ∧
    (allocateMemory 100 (run 100 [Op.allocate "A" 10 'F']) "A" 10 'F').2 =
      Output.allocated 10 "A" 'F' ∧
    (allocatedTo "A" (allocateMemory 100 (run 100 [Op.allocate "A" 10 'F']) "A" 10 'F').1).length =
      (allocatedTo "A" (run 100 [Op.allocate "A" 10 'F'])).length + 1 ∧
    2 ≤ (allocatedTo "A"
      (allocateMemory 100 (run 100 [Op.allocate "A" 10 'F']) "A" 10 'F').1).length ∧
    (allocateMemory 100 (run 100 [Op.allocate "A" 10 'F']) "A" 10 'F').1 ≠
      run 100 [Op.allocate "A" 10 'F'] :=
  ⟨by decide,
    allocateMemory_duplicate_owner_succeeds 100 (run 100 [Op.allocate "A" 10 'F']) "A" 10 'F'
      (by decide) (by decide) ((tilingInvariant_iff 100 _).2 ⟨by decide, by decide⟩)
      (by decide) (by decide) (Or.inl rfl) (by decide)⟩

/-- C10 (release not found): if no allocated block carries the label (the empty
label included), `releaseMemory` reports not-found and returns the list
unchanged; and the block the search of `releaseMemory` stops at is always an
allocated block with that label, so a free block is never matched. -/
theorem releaseMemory_notFound (l : List MemoryBlock) (processName : String) :
    ((∀ c ∈ l, c.isAllocated = true → c.processName ≠ processName) →
      releaseMemory l processName = (l, Output.notFound processName)) ∧
    (∀ i, findProcess processName l = some i →
      ∃ b, l[i]? = some b ∧ b.isAllocated = true ∧ b.processName = processName) := by
  constructor
  · intro h
    unfold releaseMemory
    rw [findProcess_none processName l h]
  · intro i hi
    obtain ⟨b, h1, h2, h3, -⟩ := findProcess_sound processName l i hi
    exact ⟨b, h1, h2, h3⟩

/-- Witness for C10: releasing the empty label on `[0:10 "A", 10:90 free]`; the
free block, whose stored name is empty, is not matched. -/
theorem releaseMemory_notFound_witness :
    releaseMemory (run 100 [Op.allocate "A" 10 'F']) "" =
      (run 100 [Op.allocate "A" 10 'F'], Output.notFound "") :=
  (releaseMemory_notFound (run 100 [Op.allocate "A" 10 'F']) "").1 (by decide)

/-! Compaction in closed form, owner names, round trips, status report, command loop -/

theorem allocatedBlocks_append (l1 l2 : List MemoryBlock) :
    allocatedBlocks (l1 ++ l2) = allocatedBlocks l1 ++ allocatedBlocks l2 := by
  simp [allocatedBlocks]

theorem freeBlocks_append (l1 l2 : List MemoryBlock) :
    freeBlocks (l1 ++ l2) = freeBlocks l1 ++ freeBlocks l2 := by
  simp [freeBlocks]

theorem sizeSum_append (l1 l2 : List MemoryBlock) :
    sizeSum (l1 ++ l2) = sizeSum l1 + sizeSum l2 := by
  simp [sizeSum]

theorem sizeSum_cons (b : MemoryBlock) (l : List MemoryBlock) :
    sizeSum (b :: l) = b.size + sizeSum l := by
  simp [sizeSum]

theorem allocatedBlocks_cons (b : MemoryBlock) (l : List MemoryBlock) :
    allocatedBlocks (b :: l) =
      if b.isAllocated = true then b :: allocatedBlocks l else allocatedBlocks l := by
  by_cases h : b.isAllocated = true <;> simp [allocatedBlocks, h]

theorem freeBlocks_cons (b : MemoryBlock) (l : List MemoryBlock) :
    freeBlocks (b :: l) =
      if b.isAllocated = true then freeBlocks l else b :: freeBlocks l := by
  by_cases h : b.isAllocated = true <;> simp [freeBlocks, h]

theorem mem_allocatedBlocks (b : MemoryBlock) (l : List MemoryBlock) :
    b ∈ allocatedBlocks l ↔ b ∈ l ∧ b.isAllocated = true := by
  simp [allocatedBlocks]

theorem relocate_length (a : Int) (l : List MemoryBlock) :
    (relocate a l).length = l.length := by
  induction l generalizing a with
  | nil => rfl
  | cons x rest ih => simp [relocate, ih]

theorem relocate_append (a : Int) (l1 l2 : List MemoryBlock) :
    relocate a (l1 ++ l2) = relocate a l1 ++ relocate (a + sizeSum l1) l2 := by
  induction l1 generalizing a with
  | nil => simp [relocate, sizeSum]
  | cons x rest ih =>
    have e : a + sizeSum (x :: rest) = a + x.size + sizeSum rest := by
      rw [sizeSum_cons]; omega
    rw [e]
    simp [relocate, ih]

theorem relocate_allocated (a : Int) (l : List MemoryBlock) :
    ∀ b ∈ relocate a l, b.isAllocated = true := by
  induction l generalizing a with
  | nil => simp [relocate]
  | cons x rest ih =>
    intro b hb
    simp only [relocate, List.mem_cons] at hb
    rcases hb with rfl | hb
    · rfl
    · exact ih _ b hb

theorem allocatedBlocks_of_all (l : List MemoryBlock) (h : ∀ b ∈ l, b.isAllocated = true) :
    allocatedBlocks l = l := by
  unfold allocatedBlocks
  rw [List.filter_eq_self]
  exact h

theorem freeBlocks_of_all (l : List MemoryBlock) (h : ∀ b ∈ l, b.isAllocated = true) :
    freeBlocks l = [] := by
  unfold freeBlocks
  rw [List.filter_eq_nil_iff]
  intro b hb
  simp [h b hb]

theorem sizeSum_relocate (a : Int) (l : List MemoryBlock) :
    sizeSum (relocate a l) = sizeSum l := by
  induction l generalizing a with
  | nil => rfl
  | cons x rest ih => simp only [relocate, sizeSum_cons, ih]

theorem relocate_relocate (a : Int) (l : List MemoryBlock) :
    relocate a (relocate a l) = relocate a l := by
  induction l generalizing a with
  | nil => rfl
  | cons x rest ih => simp only [relocate, ih]

theorem compactLoop_eq (l newList : List MemoryBlock) (addr free : Int) :
    compactLoop l newList addr free =
      (newList ++ relocate addr (allocatedBlocks l), addr + sizeSum (allocatedBlocks l),
        free + sizeSum (freeBlocks l)) := by
  induction l generalizing newList addr free with
  | nil => simp [compactLoop, allocatedBlocks, freeBlocks, relocate, sizeSum]
  | cons x rest ih =>
    by_cases hx : x.isAllocated = true
    · have e : compactLoop (x :: rest) newList addr free =
          compactLoop rest
            (newList ++ [{ startAddress := addr, size := x.size, processName := x.processName,
                           isAllocated := true }]) (addr + x.size) free := by
        simp [compactLoop, hx]
      rw [e, ih, allocatedBlocks_cons, freeBlocks_cons, if_pos hx, if_pos hx, sizeSum_cons]
      simp only [relocate, List.append_assoc, List.singleton_append, Prod.mk.injEq, true_and,
        and_true]
      omega
    · have e : compactLoop (x :: rest) newList addr free =
          compactLoop rest newList addr (free + x.size) := by
        simp [compactLoop, hx]
      rw [e, ih, allocatedBlocks_cons, freeBlocks_cons, if_neg hx, if_neg hx, sizeSum_cons]
      simp only [Prod.mk.injEq, true_and]
      omega

/-- Closed form of `compactMemory`: the allocated blocks placed end to end from
0, then the free total as one block when it is positive. -/
theorem compactMemory_eq (l : List MemoryBlock) :
    compactMemory l =
      (relocate 0 (allocatedBlocks l) ++
        (if sizeSum (freeBlocks l) > 0 then
          [{ startAddress := sizeSum (allocatedBlocks l), size := sizeSum (freeBlocks l),
             processName := "", isAllocated := false }]
        else []),
        Output.compactionCompleted) := by
  unfold compactMemory
  rw [compactLoop_eq]
  by_cases h : sizeSum (freeBlocks l) > 0
  · simp [h]
  · simp [h]

theorem allocatedBlocks_nil : allocatedBlocks [] = [] := rfl

theorem freeBlocks_nil : freeBlocks [] = [] := rfl

theorem sizeSum_nil : sizeSum [] = 0 := rfl

theorem blocks_append_free (R : List MemoryBlock) (t : MemoryBlock)
    (hR : ∀ b ∈ R, b.isAllocated = true) (ht : t.isAllocated = false) :
    allocatedBlocks (R ++ [t]) = R ∧ freeBlocks (R ++ [t]) = [t] := by
  rw [allocatedBlocks_append, freeBlocks_append, allocatedBlocks_of_all _ hR,
    freeBlocks_of_all _ hR, allocatedBlocks_cons, freeBlocks_cons, allocatedBlocks_nil,
    freeBlocks_nil]
  simp [ht]

theorem allocateMemory_succeeds_iff (T : Int) (l : List MemoryBlock) (processName : String)
    (size : Int) (s : Char) (hT : ∀ c ∈ l, c.size ≤ T) (hmax : T < 2147483647)
    (hs : 0 < size) (hstrat : s = 'F' ∨ s = 'B' ∨ s = 'W') :
    (allocateMemory T l processName size s).2 = Output.allocated size processName s ↔
      ∃ c ∈ l, Fits size c := by
  have hiff := selectBlock_isSome_iff T l size s hT hmax hs hstrat
  cases hsel : selectBlock T l size s with
  | none =>
    rw [allocateMemory_of_select_none T l processName size s hsel]
    constructor
    · intro h
      exact Output.noConfusion h
    · intro hfit
      obtain ⟨i, hi⟩ := hiff.2 hfit
      rw [hsel] at hi
      cases hi
  | some i =>
    rw [allocateMemory_of_select T l processName size s i hsel]
    exact ⟨fun _ => hiff.1 ⟨i, hsel⟩, fun _ => rfl⟩

theorem allocateMemory_success_selects (T : Int) (l : List MemoryBlock) (processName : String)
    (size : Int) (s : Char)
    (h : (allocateMemory T l processName size s).2 = Output.allocated size processName s) :
    ∃ i, selectBlock T l size s = some i := by
  cases hsel : selectBlock T l size s with
  | none =>
    rw [allocateMemory_of_select_none T l processName size s hsel] at h
    exact Output.noConfusion h
  | some i => exact ⟨i, rfl⟩

theorem mergeNext_of_allocated (c : MemoryBlock) (post : List MemoryBlock)
    (hnext : ∀ nx, post.head? = some nx → nx.isAllocated = true) :
    mergeNext c post = (c, post) := by
  cases post with
  | nil => rfl
  | cons nx post =>
    have := hnext nx rfl
    simp [mergeNext, this]

theorem mergeNext_of_free (c nx : MemoryBlock) (post : List MemoryBlock)
    (hnx : nx.isAllocated = false) :
    mergeNext c (nx :: post) = ({ c with size := c.size + nx.size }, post) := by
  simp [mergeNext, hnx]

theorem findProcess_at_length (owner : String) (pre : List MemoryBlock) (x : MemoryBlock)
    (rest : List MemoryBlock)
    (hfresh : ∀ c ∈ pre, ¬ (c.isAllocated = true ∧ c.processName = owner))
    (hx : x.isAllocated = true) (hname : x.processName = owner) :
    findProcess owner (pre ++ x :: rest) = some pre.length := by
  rw [findProcess_skip owner pre _ hfresh]
  simp [findProcess, hx, hname]

/-- Releasing the owner right after its request was placed in the free block `b`
gives back the list, when `b` has the empty name, has no free neighbour and
starts at 0 if it is the head. -/
theorem release_after_place (pre : List MemoryBlock) (b : MemoryBlock)
    (post : List MemoryBlock) (owner : String) (size : Int)
    (hstart : pre = [] → b.startAddress = 0)
    (hfree : b.isAllocated = false) (hname : b.processName = "")
    (hprev : ∀ pv, pre.getLast? = some pv → pv.isAllocated = true)
    (hnext : ∀ nx, post.head? = some nx → nx.isAllocated = true)
    (hfresh : ∀ c ∈ pre, ¬ (c.isAllocated = true ∧ c.processName = owner)) :
    releaseMemory (placeBlock (pre ++ b :: post) pre.length owner size) owner =
      (pre ++ b :: post, Output.released owner) := by
  obtain ⟨st, sz, nm, al⟩ := b
  simp only at hstart hfree hname
  subst hfree hname
  rw [placeBlock_append]
  by_cases e : sz = size
  · subst e
    simp only [if_true]
    unfold releaseMemory
    rw [findProcess_at_length owner pre _ post hfresh rfl rfl]
    simp only [Prod.mk.injEq, and_true]
    rcases List.eq_nil_or_concat pre with rfl | ⟨pre', pv, rfl⟩
    · have hst := hstart rfl
      subst hst
      show releaseBlock (_ :: post) 0 = _
      rw [releaseBlock_head, mergeNext_of_allocated _ post hnext]
      rfl
    · have hpv : pv.isAllocated = true := hprev pv (by simp)
      have e1 : ∀ x : MemoryBlock, pre'.concat pv ++ x :: post = pre' ++ pv :: x :: post := by
        intro x; simp
      have e2 : (pre'.concat pv).length = pre'.length + 1 := by simp
      rw [e1, e1, e2, releaseBlock_inner, mergeNext_of_allocated _ post hnext]
      simp [hpv, freed]
  · simp only [e, if_false]
    unfold releaseMemory
    rw [findProcess_at_length owner pre _ _ hfresh rfl rfl]
    simp only [Prod.mk.injEq, and_true]
    have hsz : size + (sz - size) = sz := by omega
    rcases List.eq_nil_or_concat pre with rfl | ⟨pre', pv, rfl⟩
    · have hst := hstart rfl
      subst hst
      show releaseBlock (_ :: _ :: post) 0 = _
      rw [releaseBlock_head, mergeNext_of_free _ _ post rfl]
      simp [freed, hsz]
    · have hpv : pv.isAllocated = true := hprev pv (by simp)
      have e1 : ∀ (x : MemoryBlock) (rest : List MemoryBlock),
          pre'.concat pv ++ x :: rest = pre' ++ pv :: x :: rest := by
        intro x rest; simp
      have e2 : (pre'.concat pv).length = pre'.length + 1 := by simp
      rw [e1, e1, e2, releaseBlock_inner, mergeNext_of_free _ _ post rfl]
      simp [hpv, freed, hsz]

theorem getElem?_append_singleton_free (R : List MemoryBlock) (t b : MemoryBlock) (i : Nat)
    (hR : ∀ c ∈ R, c.isAllocated = true) (hb : b.isAllocated = false)
    (h : (R ++ [t])[i]? = some b) : i = R.length ∧ b = t := by
  induction R generalizing i with
  | nil =>
    cases i with
    | zero =>
      simp at h
      exact ⟨rfl, h.symm⟩
    | succ i => simp at h
  | cons x R ih =>
    cases i with
    | zero =>
      simp at h
      subst h
      have := hR x (List.mem_cons_self _ _)
      rw [hb] at this
      cases this
    | succ i =>
      rw [List.cons_append, List.getElem?_cons_succ] at h
      obtain ⟨h1, h2⟩ := ih i (fun c hc => hR c (List.mem_cons_of_mem _ hc)) h
      exact ⟨by simp [h1], h2⟩

theorem allocatedNames_append (l1 l2 : List MemoryBlock) :
    allocatedNames (l1 ++ l2) = allocatedNames l1 ++ allocatedNames l2 := by
  simp [allocatedNames, allocatedBlocks_append]

theorem freeNames_append (l1 l2 : List MemoryBlock) :
    freeNames (l1 ++ l2) = freeNames l1 ++ freeNames l2 := by
  simp [freeNames, freeBlocks_append]

theorem allocatedNames_cons_allocated (b : MemoryBlock) (l : List MemoryBlock)
    (h : b.isAllocated = true) : allocatedNames (b :: l) = b.processName :: allocatedNames l := by
  simp [allocatedNames, allocatedBlocks_cons, h]

theorem allocatedNames_cons_free (b : MemoryBlock) (l : List MemoryBlock)
    (h : b.isAllocated = false) : allocatedNames (b :: l) = allocatedNames l := by
  simp [allocatedNames, allocatedBlocks_cons, h]

theorem freeNames_cons_allocated (b : MemoryBlock) (l : List MemoryBlock)
    (h : b.isAllocated = true) : freeNames (b :: l) = freeNames l := by
  simp [freeNames, freeBlocks_cons, h]

theorem freeNames_cons_free (b : MemoryBlock) (l : List MemoryBlock)
    (h : b.isAllocated = false) : freeNames (b :: l) = b.processName :: freeNames l := by
  simp [freeNames, freeBlocks_cons, h]

theorem allocatedNames_cons (b : MemoryBlock) (l : List MemoryBlock) :
    allocatedNames (b :: l) =
      if b.isAllocated = true then b.processName :: allocatedNames l else allocatedNames l := by
  by_cases h : b.isAllocated = true <;> simp [allocatedNames, allocatedBlocks_cons, h]

theorem freeNames_cons (b : MemoryBlock) (l : List MemoryBlock) :
    freeNames (b :: l) =
      if b.isAllocated = true then freeNames l else b.processName :: freeNames l := by
  by_cases h : b.isAllocated = true <;> simp [freeNames, freeBlocks_cons, h]

theorem allocatedNames_nil : allocatedNames [] = [] := rfl

theorem freeNames_nil : freeNames [] = [] := rfl

theorem mem_allocatedNames (n : String) (l : List MemoryBlock) :
    n ∈ allocatedNames l ↔ ∃ b ∈ l, b.isAllocated = true ∧ b.processName = n := by
  simp [allocatedNames, allocatedBlocks, and_assoc]

theorem mem_freeNames (n : String) (l : List MemoryBlock) :
    n ∈ freeNames l ↔ ∃ b ∈ l, b.isAllocated = false ∧ b.processName = n := by
  simp [freeNames, freeBlocks, and_assoc]

theorem pairwise_iff_nodup (l : List MemoryBlock) :
    l.Pairwise (fun b c =>
      ¬ (b.isAllocated = true ∧ c.isAllocated = true ∧ b.processName = c.processName)) ↔
    (allocatedNames l).Nodup := by
  induction l with
  | nil => simp [allocatedNames, allocatedBlocks]
  | cons x rest ih =>
    rw [List.pairwise_cons, ih]
    by_cases hx : x.isAllocated = true
    · rw [allocatedNames_cons_allocated x rest hx, List.nodup_cons, mem_allocatedNames]
      constructor
      · rintro ⟨h1, h2⟩
        refine ⟨?_, h2⟩
        rintro ⟨c, hc, hc1, hc2⟩
        exact h1 c hc ⟨hx, hc1, hc2.symm⟩
      · rintro ⟨h1, h2⟩
        refine ⟨?_, h2⟩
        rintro c hc ⟨-, hc1, hc2⟩
        exact h1 ⟨c, hc, hc1, hc2.symm⟩
    · have hx' : x.isAllocated = false := by simpa using hx
      rw [allocatedNames_cons_free x rest hx']
      constructor
      · rintro ⟨-, h2⟩
        exact h2
      · intro h2
        refine ⟨?_, h2⟩
        rintro c - ⟨h, -⟩
        exact hx h

/-- The owner invariant in terms of the names of the allocated and of the free blocks. -/
theorem ownerInvariant_iff (l : List MemoryBlock) :
    OwnerInvariant l ↔
      "" ∉ allocatedNames l ∧ (allocatedNames l).Nodup ∧ ∀ n ∈ freeNames l, n = "" := by
  unfold OwnerInvariant
  rw [pairwise_iff_nodup]
  constructor
  · rintro ⟨h1, h2, h3⟩
    refine ⟨?_, h2, ?_⟩
    · rw [mem_allocatedNames]
      rintro ⟨b, hb, hb1, hb2⟩
      exact h1 b hb hb1 hb2
    · intro n hn
      rw [mem_freeNames] at hn
      obtain ⟨b, hb, hb1, rfl⟩ := hn
      exact h3 b hb hb1
  · rintro ⟨h1, h2, h3⟩
    refine ⟨?_, h2, ?_⟩
    · intro b hb hb1 hb2
      exact h1 ((mem_allocatedNames _ _).2 ⟨b, hb, hb1, hb2⟩)
    · intro b hb hb1
      exact h3 _ ((mem_freeNames _ _).2 ⟨b, hb, hb1, rfl⟩)

theorem names_placeBlock (pre : List MemoryBlock) (b : MemoryBlock) (post : List MemoryBlock)
    (processName : String) (size : Int) (hb : b.isAllocated = false) :
    allocatedNames (placeBlock (pre ++ b :: post) pre.length processName size) =
      allocatedNames pre ++ processName :: allocatedNames post ∧
    ∀ n ∈ freeNames (placeBlock (pre ++ b :: post) pre.length processName size),
      n ∈ freeNames (pre ++ b :: post) := by
  rw [placeBlock_append]
  by_cases e : b.size = size
  · simp only [if_pos e, allocatedNames_append, allocatedNames_cons, freeNames_append,
      freeNames_cons, hb, if_true, Bool.false_eq_true, if_false, true_and]
    intro n hn
    rcases List.mem_append.1 hn with hn | hn
    · exact List.mem_append_left _ hn
    · exact List.mem_append_right _ (List.mem_cons_of_mem _ hn)
  · simp only [if_neg e, allocatedNames_append, allocatedNames_cons, freeNames_append,
      freeNames_cons, hb, if_true, Bool.false_eq_true, if_false, true_and]
    exact fun n hn => hn

theorem names_mergeNext (c : MemoryBlock) (post : List MemoryBlock) :
    (mergeNext c post).1.isAllocated = c.isAllocated ∧
    (mergeNext c post).1.processName = c.processName ∧
    allocatedNames (mergeNext c post).2 = allocatedNames post ∧
    ∀ n ∈ freeNames (mergeNext c post).2, n ∈ freeNames post := by
  cases post with
  | nil => exact ⟨rfl, rfl, rfl, fun n hn => hn⟩
  | cons nx post =>
    by_cases h : nx.isAllocated = false
    · rw [mergeNext_of_free c nx post h, allocatedNames_cons_free nx post h,
        freeNames_cons_free nx post h]
      exact ⟨rfl, rfl, rfl, fun n hn => List.mem_cons_of_mem _ hn⟩
    · have h' : nx.isAllocated = true := by simpa using h
      rw [mergeNext_of_allocated c (nx :: post) (by intro y hy; simp at hy; rw [← hy]; exact h')]
      exact ⟨rfl, rfl, rfl, fun n hn => hn⟩

theorem names_releaseBlock (pre : List MemoryBlock) (b : MemoryBlock) (post : List MemoryBlock)
    (hb : b.isAllocated = true) :
    allocatedNames (releaseBlock (pre ++ b :: post) pre.length) =
      allocatedNames pre ++ allocatedNames post ∧
    ∀ n ∈ freeNames (releaseBlock (pre ++ b :: post) pre.length),
      n = "" ∨ n ∈ freeNames (pre ++ b :: post) := by
  obtain ⟨m1, m2, m3, m4⟩ := names_mergeNext (freed b) post
  have m1' : (mergeNext (freed b) post).1.isAllocated = false := m1
  have m2' : (mergeNext (freed b) post).1.processName = "" := m2
  rcases List.eq_nil_or_concat pre with rfl | ⟨pre', pv, rfl⟩
  · show allocatedNames (releaseBlock (b :: post) 0) = _ ∧
      ∀ n ∈ freeNames (releaseBlock (b :: post) 0), _
    rw [releaseBlock_head]
    simp only [allocatedNames_cons, freeNames_cons, m1', m2', m3, Bool.false_eq_true,
      if_false, allocatedNames_nil, List.nil_append, true_and, List.mem_cons, hb, if_true]
    intro n hn
    rcases hn with hn | hn
    · exact Or.inl hn
    · exact Or.inr (m4 n hn)
  · have e1 : pre'.concat pv ++ b :: post = pre' ++ pv :: b :: post := by simp
    have e2 : (pre'.concat pv).length = pre'.length + 1 := by simp
    have e3 : pre'.concat pv = pre' ++ [pv] := by simp
    rw [e1, e2, e3, releaseBlock_inner]
    by_cases hp : pv.isAllocated = false
    · rw [if_pos hp]
      simp only [allocatedNames_append, allocatedNames_cons, freeNames_append,
        freeNames_cons, hp, hb, m3, Bool.false_eq_true, if_false, if_true, allocatedNames_nil,
        List.append_nil, true_and, List.mem_append, List.mem_cons]
      intro n hn
      rcases hn with hn | hn | hn
      · exact Or.inr (Or.inl hn)
      · exact Or.inr (Or.inr (Or.inl hn))
      · exact Or.inr (Or.inr (Or.inr (m4 n hn)))
    · have hp' : pv.isAllocated = true := by simpa using hp
      rw [if_neg hp]
      simp only [allocatedNames_append, allocatedNames_cons, freeNames_append,
        freeNames_cons, hp', hb, m1', m2', m3, Bool.false_eq_true, if_false, if_true,
        allocatedNames_nil, List.append_nil, List.append_assoc, List.singleton_append,
        true_and, List.mem_append, List.mem_cons]
      intro n hn
      rcases hn with hn | hn | hn
      · exact Or.inr (Or.inl hn)
      · exact Or.inl hn
      · exact Or.inr (Or.inr (m4 n hn))

theorem allocatedNames_relocate (a : Int) (l : List MemoryBlock) :
    allocatedNames (relocate a l) = l.map (fun b => b.processName) := by
  induction l generalizing a with
  | nil => rfl
  | cons x rest ih =>
    show allocatedNames (_ :: relocate (a + x.size) rest) = _
    rw [allocatedNames_cons_allocated _ _ rfl, ih]
    rfl

theorem names_compactMemory (l : List MemoryBlock) :
    allocatedNames (compactMemory l).1 = allocatedNames l ∧
    ∀ n ∈ freeNames (compactMemory l).1, n = "" := by
  have hR := relocate_allocated 0 (allocatedBlocks l)
  rw [compactMemory_eq]
  show allocatedNames (relocate 0 (allocatedBlocks l) ++ _) = _ ∧
    ∀ n ∈ freeNames (relocate 0 (allocatedBlocks l) ++ _), _
  rw [allocatedNames_append, freeNames_append, allocatedNames_relocate]
  have hfr : freeNames (relocate 0 (allocatedBlocks l)) = [] := by
    unfold freeNames
    rw [freeBlocks_of_all _ hR]
    rfl
  rw [hfr]
  by_cases hf : sizeSum (freeBlocks l) > 0
  · simp only [if_pos hf, allocatedNames_cons, freeNames_cons, Bool.false_eq_true, if_false,
      allocatedNames_nil, freeNames_nil, List.append_nil, List.nil_append, List.mem_singleton,
      imp_self, implies_true, and_true]
    rfl
  · simp only [if_neg hf, allocatedNames_nil, freeNames_nil, List.append_nil,
      List.not_mem_nil, false_implies, implies_true, and_true]
    rfl

theorem freeNames_step (T : Int) (l : List MemoryBlock) (op : Op)
    (h : ∀ n ∈ freeNames l, n = "") : ∀ n ∈ freeNames (step T l op), n = "" := by
  cases op with
  | allocate p s c =>
    show ∀ n ∈ freeNames (allocateMemory T l p s c).1, n = ""
    cases hsel : selectBlock T l s c with
    | none => rw [allocateMemory_of_select_none T l p s c hsel]; exact h
    | some i =>
      rw [allocateMemory_of_select T l p s c i hsel]
      obtain ⟨b, hb, hf⟩ := selectBlock_sound T l s c i hsel
      obtain ⟨pre, post, rfl, rfl⟩ := split_at_index l i b hb
      intro n hn
      exact h n ((names_placeBlock pre b post p s hf.1).2 n hn)
  | release p =>
    show ∀ n ∈ freeNames (releaseMemory l p).1, n = ""
    unfold releaseMemory
    cases hfind : findProcess p l with
    | none => exact h
    | some i =>
      obtain ⟨b, hb, hb1, -, -⟩ := findProcess_sound p l i hfind
      obtain ⟨pre, post, rfl, rfl⟩ := split_at_index l i b hb
      intro n hn
      rcases (names_releaseBlock pre b post hb1).2 n hn with hn | hn
      · exact hn
      · exact h n hn
  | compact => exact (names_compactMemory l).2

theorem freeNames_foldl (T : Int) (ops : List Op) (l : List MemoryBlock)
    (h : ∀ n ∈ freeNames l, n = "") : ∀ n ∈ freeNames (ops.foldl (step T) l), n = "" := by
  induction ops generalizing l with
  | nil => exact h
  | cons op ops ih =>
    simp only [List.foldl_cons]
    exact ih _ (freeNames_step T l op h)

theorem freeNames_initializeMemory (N : Int) : ∀ n ∈ freeNames (initializeMemory N), n = "" := by
  intro n hn
  simpa [initializeMemory, freeNames, freeBlocks] using hn

theorem allocatedNames_step (T : Int) (l : List MemoryBlock) (op : Op)
    (hpre : OwnerPrecondition l op)
    (h1 : "" ∉ allocatedNames l) (h2 : (allocatedNames l).Nodup) :
    "" ∉ allocatedNames (step T l op) ∧ (allocatedNames (step T l op)).Nodup := by
  cases op with
  | allocate p s c =>
    show "" ∉ allocatedNames (allocateMemory T l p s c).1 ∧
      (allocatedNames (allocateMemory T l p s c).1).Nodup
    cases hsel : selectBlock T l s c with
    | none => rw [allocateMemory_of_select_none T l p s c hsel]; exact ⟨h1, h2⟩
    | some i =>
      rw [allocateMemory_of_select T l p s c i hsel]
      obtain ⟨b, hb, hf⟩ := selectBlock_sound T l s c i hsel
      obtain ⟨pre, post, rfl, rfl⟩ := split_at_index l i b hb
      obtain ⟨hp1, hp2⟩ := hpre
      have hnotin : p ∉ allocatedNames (pre ++ b :: post) := by
        rw [mem_allocatedNames]
        rintro ⟨x, hx, hx1, hx2⟩
        exact hp2 x hx hx1 hx2
      have hl : allocatedNames (pre ++ b :: post) = allocatedNames pre ++ allocatedNames post := by
        rw [allocatedNames_append, allocatedNames_cons_free b post hf.1]
      rw [hl] at h1 h2 hnotin
      show "" ∉ allocatedNames (placeBlock (pre ++ b :: post) pre.length p s) ∧
        (allocatedNames (placeBlock (pre ++ b :: post) pre.length p s)).Nodup
      rw [(names_placeBlock pre b post p s hf.1).1]
      constructor
      · intro hmem
        rcases List.mem_append.1 hmem with hmem | hmem
        · exact h1 (List.mem_append_left _ hmem)
        · rcases List.mem_cons.1 hmem with hmem | hmem
          · exact hp1 hmem.symm
          · exact h1 (List.mem_append_right _ hmem)
      · rw [List.nodup_middle, List.nodup_cons]
        exact ⟨hnotin, h2⟩
  | release p =>
    show "" ∉ allocatedNames (releaseMemory l p).1 ∧
      (allocatedNames (releaseMemory l p).1).Nodup
    unfold releaseMemory
    cases hfind : findProcess p l with
    | none => exact ⟨h1, h2⟩
    | some i =>
      obtain ⟨b, hb, hb1, -, -⟩ := findProcess_sound p l i hfind
      obtain ⟨pre, post, rfl, rfl⟩ := split_at_index l i b hb
      have hl : allocatedNames (pre ++ b :: post) =
          allocatedNames pre ++ b.processName :: allocatedNames post := by
        rw [allocatedNames_append, allocatedNames_cons_allocated b post hb1]
      rw [hl] at h1 h2
      show "" ∉ allocatedNames (releaseBlock (pre ++ b :: post) pre.length) ∧
        (allocatedNames (releaseBlock (pre ++ b :: post) pre.length)).Nodup
      rw [(names_releaseBlock pre b post hb1).1]
      constructor
      · intro hmem
        rcases List.mem_append.1 hmem with hmem | hmem
        · exact h1 (List.mem_append_left _ hmem)
        · exact h1 (List.mem_append_right _ (List.mem_cons_of_mem _ hmem))
      · rw [List.nodup_middle, List.nodup_cons] at h2
        exact h2.2
  | compact =>
    show "" ∉ allocatedNames (compactMemory l).1 ∧ (allocatedNames (compactMemory l).1).Nodup
    rw [(names_compactMemory l).1]
    exact ⟨h1, h2⟩

theorem ownerInvariant_foldl (T : Int) (ops : List Op) (l : List MemoryBlock)
    (hresp : OwnersRespected T l ops) (h : OwnerInvariant l) :
    OwnerInvariant (ops.foldl (step T) l) := by
  induction ops generalizing l with
  | nil => exact h
  | cons op ops ih =>
    obtain ⟨hpre, hrest⟩ := hresp
    simp only [List.foldl_cons]
    apply ih _ hrest
    rw [ownerInvariant_iff] at h ⊢
    obtain ⟨h1, h2, h3⟩ := h
    obtain ⟨k1, k2⟩ := allocatedNames_step T l op hpre h1 h2
    exact ⟨k1, k2, freeNames_step T l op h3⟩

theorem ownerInvariant_initializeMemory (N : Int) : OwnerInvariant (initializeMemory N) := by
  rw [ownerInvariant_iff]
  refine ⟨?_, ?_, freeNames_initializeMemory N⟩ <;>
    simp [initializeMemory, allocatedNames, allocatedBlocks]

/-- C19 (compaction is idempotent): for every block list, compacting the result
of `compactMemory` returns that same result again. -/
theorem compactMemory_idempotent (l : List MemoryBlock) :
    compactMemory (compactMemory l).1 = compactMemory l := by
  have hR := relocate_allocated 0 (allocatedBlocks l)
  rw [compactMemory_eq l]
  show compactMemory (relocate 0 (allocatedBlocks l) ++ _) = _
  by_cases hf : sizeSum (freeBlocks l) > 0
  · rw [if_pos hf]
    obtain ⟨hA, hFr⟩ := blocks_append_free (relocate 0 (allocatedBlocks l))
      { startAddress := sizeSum (allocatedBlocks l), size := sizeSum (freeBlocks l),
        processName := "", isAllocated := false } hR rfl
    rw [compactMemory_eq, hA, hFr, relocate_relocate, sizeSum_relocate, sizeSum_cons,
      sizeSum_nil, Int.add_zero, if_pos hf]
  · rw [if_neg hf, List.append_nil, compactMemory_eq, allocatedBlocks_of_all _ hR,
      freeBlocks_of_all _ hR, relocate_relocate, sizeSum_relocate, sizeSum_nil,
      if_neg (by decide), List.append_nil]

/-- C20 (unknown strategy is a no-op): for every block list, owner and size, and
every strategy character other than `'F'`, `'B'` and `'W'`, `allocateMemory`
selects no block, reports not enough memory and returns the list unchanged. -/
theorem allocateMemory_unknown_strategy (T : Int) (l : List MemoryBlock)
    (processName : String) (size : Int) (s : Char)
    (hF : s ≠ 'F') (hB : s ≠ 'B') (hW : s ≠ 'W') :
    selectBlock T l size s = none ∧
    allocateMemory T l processName size s = (l, Output.notEnoughMemory processName) :=
  ⟨selectBlock_other T l size s hF hB hW,
    allocateMemory_of_select_none T l processName size s (selectBlock_other T l size s hF hB hW)⟩

/-- Witness for C20: lower-case `'f'` on a fresh space of 100, where the free
block of 100 would hold the request of 10. -/
theorem allocateMemory_unknown_strategy_witness :
    (∃ c ∈ initializeMemory 100, Fits 10 c) ∧
    selectBlock 100 (initializeMemory 100) 10 'f' = none ∧
    allocateMemory 100 (initializeMemory 100) "P" 10 'f' =
      (initializeMemory 100, Output.notEnoughMemory "P") :=
  ⟨by decide,
    allocateMemory_unknown_strategy 100 (initializeMemory 100) "P" 10 'f'
      (by decide) (by decide) (by decide)⟩

/-- Round trip on a fresh space below `INT_MAX`: for `N < INT_MAX`, `0 < S ≤ N`
and a strategy among `'F'`, `'B'`, `'W'`, after `initializeMemory(N)` the call
`allocateMemory("P1", S, strategy)` succeeds and the following
`releaseMemory("P1")` succeeds and leaves exactly the initial list, one free
block with start 0 and size `N`.  (`N > 0` follows from `0 < S ≤ N`.) -/
theorem roundtrip_fresh (N S : Int) (s : Char) (hmax : N < 2147483647) (hS : 0 < S)
    (hSN : S ≤ N)
    (hstrat : s = 'F' ∨ s = 'B' ∨ s = 'W') :
    (allocateMemory N (initializeMemory N) "P1" S s).2 = Output.allocated S "P1" s ∧
    releaseMemory (allocateMemory N (initializeMemory N) "P1" S s).1 "P1" =
      ([{ startAddress := 0, size := N, processName := "", isAllocated := false }],
        Output.released "P1") := by
  have hT : ∀ c ∈ initializeMemory N, c.size ≤ N := by
    intro c hc
    simp only [initializeMemory, List.mem_singleton] at hc
    subst hc
    exact le_refl _
  have hfit : ∃ c ∈ initializeMemory N, Fits S c :=
    ⟨_, List.mem_singleton.2 rfl, rfl, hSN⟩
  obtain ⟨i, hsel⟩ := (selectBlock_isSome_iff N _ S s hT hmax hS hstrat).2 hfit
  obtain ⟨b, hb, -⟩ := selectBlock_sound N _ S s i hsel
  have hi : i = 0 := by
    cases i with
    | zero => rfl
    | succ i => simp [initializeMemory] at hb
  subst hi
  rw [allocateMemory_of_select N _ "P1" S s 0 hsel]
  refine ⟨rfl, ?_⟩
  exact release_after_place [] (MemoryBlock.mk 0 N "" false) [] "P1" S (fun _ => rfl) rfl rfl
    (by simp) (by simp) (by simp)

/-- Instance below `INT_MAX`: `N = 100`, `S = 40`, strategy `'B'`. -/
theorem roundtrip_fresh_witness :
    (allocateMemory 100 (initializeMemory 100) "P1" 40 'B').2 = Output.allocated 40 "P1" 'B' ∧
    releaseMemory (allocateMemory 100 (initializeMemory 100) "P1" 40 'B').1 "P1" =
      ([{ startAddress := 0, size := 100, processName := "", isAllocated := false }],
        Output.released "P1") :=
  roundtrip_fresh 100 40 'B' (by decide) (by decide) (by decide) (Or.inr (Or.inl rfl))

/-- C15, the claim as stated fails: on a fresh space of 100 the parsed request
`RQ A 0 F` (size 0) is passed to `allocateMemory`, which reports an allocation
and changes the list to `[0:0 "A", 0:100 free]`; and the parsed request
`RQ A 10 x` (unknown strategy) also reaches the engine, whose not-enough-memory
message is what the loop prints. -/
theorem dispatcher_validation_counterexample :
    commandLoopBody 100 (initializeMemory 100) (some "RQ") (some ("A", 0, 'F')) none =
      { memoryHead :=
          [{ startAddress := 0, size := 0, processName := "A", isAllocated := true },
           { startAddress := 0, size := 100, processName := "", isAllocated := false }],
        printed := Printed.engine (Output.allocated 0 "A" 'F'),
        continues := true } ∧
    (commandLoopBody 100 (initializeMemory 100) (some "RQ") (some ("A", 0, 'F')) none).memoryHead ≠
      initializeMemory 100 ∧
    commandLoopBody 100 (initializeMemory 100) (some "RQ") (some ("A", 10, 'x')) none =
      { memoryHead := initializeMemory 100,
        printed := Printed.engine (Output.notEnoughMemory "A"),
        continues := true } := by
  decide

/-- C15 as amended: the command loop validates only that the three fields of a
request parse.  A request whose fields do not parse is rejected before the
engine is reached and leaves the list unchanged; every parsed request
`(name, size, strategy)` is passed to `allocateMemory` as it is, whatever the
size and the strategy character, and the loop goes on with the list and the
message `allocateMemory` returns; for a strategy character other than `'F'`,
`'B'`, `'W'` that list is the list before the request. -/
theorem commandLoop_request (T : Int) (l : List MemoryBlock) (processName : String)
    (size : Int) (strategy : Char) (releaseField : Option String) :
    commandLoopBody T l (some "RQ") none releaseField =
      { memoryHead := l, printed := Printed.invalidRequestInput, continues := true } ∧
    commandLoopBody T l (some "RQ") (some (processName, size, strategy)) releaseField =
      { memoryHead := (allocateMemory T l processName size strategy).1,
        printed := Printed.engine (allocateMemory T l processName size strategy).2,
        continues := true } ∧
    (strategy ≠ 'F' → strategy ≠ 'B' → strategy ≠ 'W' →
      commandLoopBody T l (some "RQ") (some (processName, size, strategy)) releaseField =
        { memoryHead := l, printed := Printed.engine (Output.notEnoughMemory processName),
          continues := true }) := by
  refine ⟨rfl, rfl, ?_⟩
  intro hF hB hW
  have h := allocateMemory_of_select_none T l processName size strategy
    (selectBlock_other T l size strategy hF hB hW)
  show ({ memoryHead := (allocateMemory T l processName size strategy).1,
          printed := Printed.engine (allocateMemory T l processName size strategy).2,
          continues := true } : LoopResult) = _
  rw [h]

/-- Witness for C15 as amended: `RQ A 10 x` on a fresh space of 100. -/
theorem commandLoop_request_witness :
    commandLoopBody 100 (initializeMemory 100) (some "RQ") (some ("A", 10, 'x')) none =
      { memoryHead := initializeMemory 100,
        printed := Printed.engine (Output.notEnoughMemory "A"), continues := true } :=
  (commandLoop_request 100 (initializeMemory 100) "A" 10 'x' none).2.2
    (by decide) (by decide) (by decide)

/-- C16, evaluation of the command loop at the announced names: the help text
announces `ST` (print memory status) and `EX` (exit the program), but for either
name the loop writes `Invalid command. Please use one of the listed commands.`
and goes on; the status is printed for `STAT` and the loop is left for `X`. -/
theorem commandLoop_announced_names (T : Int) (l : List MemoryBlock)
    (requestFields : Option (String × Int × Char)) (releaseField : Option String) :
    ("ST", "Print memory status") ∈ helpText ∧
    ("EX", "Exit the program") ∈ helpText ∧
    commandLoopBody T l (some "ST") requestFields releaseField =
      { memoryHead := l, printed := Printed.invalidCommand, continues := true } ∧
    commandLoopBody T l (some "EX") requestFields releaseField =
      { memoryHead := l, printed := Printed.invalidCommand, continues := true } ∧
    commandLoopBody T l (some "STAT") requestFields releaseField =
      { memoryHead := l, printed := Printed.status (printMemoryStatus T l).2,
        continues := true } ∧
    commandLoopBody T l (some "X") requestFields releaseField =
      { memoryHead := l, printed := Printed.nothing, continues := false } := by
  refine ⟨by decide, by decide, ?_, ?_, ?_, ?_⟩ <;> rfl

/-- C18, evaluation at `totalMemorySize = INT_MAX`: the fresh space
`[0, 2147483647)` satisfies the tiling invariant, `compactMemory` returns it
unchanged, and the free total 2147483647 is at least 10; yet the request of 10
with strategy `'B'` made right after the compaction reports not enough memory
(`bestFitSize` starts as the wrapped `totalMemorySize + 1`). -/
theorem allocate_after_compact_at_intMax :
    TilingInvariant 2147483647 (initializeMemory 2147483647) ∧
    (compactMemory (initializeMemory 2147483647)).1 = initializeMemory 2147483647 ∧
    (10 : Int) ≤ sizeSum (freeBlocks (initializeMemory 2147483647)) ∧
    (allocateMemory 2147483647 (compactMemory (initializeMemory 2147483647)).1 "P" 10 'B').2 =
      Output.notEnoughMemory "P" :=
  ⟨(tilingInvariant_iff 2147483647 _).2 ⟨by decide, by decide⟩, by decide, by decide,
    by decide⟩

/-- Allocation after compaction, below `INT_MAX`: in a state satisfying the
tiling invariant for `totalMemorySize < INT_MAX`, for `size > 0`, a name that
fits the name field and a strategy among
`'F'`, `'B'`, `'W'`, an `allocateMemory` call made right after `compactMemory`
succeeds exactly when `size` is at most the sum of the sizes of the blocks that
were free before the compaction, and then the new allocated block is the block
after the compacted allocated blocks and starts at the sum of their sizes. -/
theorem allocate_after_compact (T : Int) (l : List MemoryBlock) (processName : String)
    (size : Int) (s : Char) (hinv : TilingInvariant T l) (hmax : T < 2147483647)
    (_hname : NameFits processName) (hs : 0 < size)
    (hstrat : s = 'F' ∨ s = 'B' ∨ s = 'W') :
    ((allocateMemory T (compactMemory l).1 processName size s).2 =
        Output.allocated size processName s ↔ size ≤ sizeSum (freeBlocks l)) ∧
    ((allocateMemory T (compactMemory l).1 processName size s).2 =
        Output.allocated size processName s →
      (allocateMemory T (compactMemory l).1 processName size s).1[(allocatedBlocks l).length]? =
        some ({ startAddress := sizeSum (allocatedBlocks l), size := size,
                processName := processName, isAllocated := true } : MemoryBlock)) := by
  have htiles := ((tilingInvariant_iff T l).1 hinv).2
  have htiles' := tilesFrom_compact T l htiles
  have hT : ∀ c ∈ (compactMemory l).1, c.size ≤ T := by
    intro c hc
    have := tilesFrom_bounds 0 T _ htiles' c hc
    omega
  have hR := relocate_allocated 0 (allocatedBlocks l)
  have hiff :=
    allocateMemory_succeeds_iff T (compactMemory l).1 processName size s hT hmax hs hstrat
  have hshape := compactMemory_eq l
  constructor
  · rw [hiff, hshape]
    constructor
    · rintro ⟨c, hc, hfree, hsize⟩
      rcases List.mem_append.1 hc with hc | hc
      · have := hR c hc
        rw [hfree] at this
        cases this
      · by_cases hf : sizeSum (freeBlocks l) > 0
        · rw [if_pos hf, List.mem_singleton] at hc
          subst hc
          exact hsize
        · rw [if_neg hf] at hc
          cases hc
    · intro hle
      have hf : sizeSum (freeBlocks l) > 0 := by omega
      refine ⟨MemoryBlock.mk (sizeSum (allocatedBlocks l)) (sizeSum (freeBlocks l)) "" false,
        List.mem_append_right _ ?_, rfl, hle⟩
      rw [if_pos hf]
      exact List.mem_singleton.2 rfl
  · intro hsucc
    obtain ⟨i, hsel⟩ := allocateMemory_success_selects T _ processName size s hsucc
    obtain ⟨b, hb, hfit⟩ := selectBlock_sound T _ size s i hsel
    rw [allocateMemory_of_select T _ processName size s i hsel]
    have hb' := hb
    rw [hshape] at hb'
    by_cases hf : sizeSum (freeBlocks l) > 0
    · simp only [if_pos hf] at hb'
      obtain ⟨hi, hbt⟩ := getElem?_append_singleton_free _ _ b i hR hfit.1 hb'
      rw [relocate_length] at hi
      rw [← hi, placeBlock_getElem? _ i b processName size hb, hbt]
    · simp only [if_neg hf, List.append_nil] at hb'
      have := hR b (List.getElem?_mem hb')
      rw [hfit.1] at this
      cases this

/-- Instance below `INT_MAX`: `[0:20 "A", 20:30 free, 50:10 "B", 60:40 free]` with total
size 100; after compaction a request of 70 with `'F'`. -/
theorem allocate_after_compact_witness :
    ((allocateMemory 100 (compactMemory fragmentedBlocks).1 "P" 70 'F').2 =
        Output.allocated 70 "P" 'F' ↔ 70 ≤ sizeSum (freeBlocks fragmentedBlocks)) ∧
    ((allocateMemory 100 (compactMemory fragmentedBlocks).1 "P" 70 'F').2 =
        Output.allocated 70 "P" 'F' →
      (allocateMemory 100 (compactMemory fragmentedBlocks).1 "P" 70 'F').1[
          (allocatedBlocks fragmentedBlocks).length]? =
        some ({ startAddress := sizeSum (allocatedBlocks fragmentedBlocks), size := 70,
                processName := "P", isAllocated := true } : MemoryBlock)) :=
  allocate_after_compact 100 fragmentedBlocks "P" 70 'F'
    ((tilingInvariant_iff 100 _).2 ⟨by decide, by decide⟩) (by decide) (by decide) (by decide)
    (Or.inl rfl)

/-- Owner invariant for names that fit the name field: in every state reached
from `initializeMemory(N)` by calls of which every `allocateMemory` call has an
owner of at most 9 bytes that is non-empty and labels no allocated block of the
state it is made in (any size, any strategy character), and arbitrary
`releaseMemory` and `compactMemory` calls, every allocated block has a
non-empty owner, no two allocated blocks share an owner, and every free block
has the empty name. -/
theorem ownerInvariant_reachable (N : Int) (ops : List Op)
    (_hnames : ∀ p s c, Op.allocate p s c ∈ ops → NameFits p)
    (hresp : OwnersRespected N (initializeMemory N) ops) :
    OwnerInvariant (run N ops) :=
  ownerInvariant_foldl N ops (initializeMemory N) hresp (ownerInvariant_initializeMemory N)

/-- Instance of the owner invariant: total size 100 and the calls RQ A 10 F,
RQ B 20 B, RL A, RQ A 5 W, C. -/
theorem ownerInvariant_reachable_witness :
    OwnersRespected 100 (initializeMemory 100)
      [Op.allocate "A" 10 'F', Op.allocate "B" 20 'B', Op.release "A",
       Op.allocate "A" 5 'W', Op.compact] ∧
    OwnerInvariant
      (run 100 [Op.allocate "A" 10 'F', Op.allocate "B" 20 'B', Op.release "A",
        Op.allocate "A" 5 'W', Op.compact]) :=
  ⟨by decide,
    ownerInvariant_reachable 100 _ (by
      intro p s c h
      simp only [List.mem_cons, Op.allocate.injEq, reduceCtorEq, List.mem_singleton,
        List.not_mem_nil, or_false, false_or] at h
      rcases h with ⟨rfl, -, -⟩ | ⟨rfl, -, -⟩ | ⟨rfl, -, -⟩ <;> decide)
      (by decide)⟩

/-- Allocate/release round trip for names that fit the name field: in a state
reached from `initializeMemory(N)`, `N > 0`, by `allocateMemory` (sizes > 0,
owners of at most 9 bytes), `releaseMemory` and `compactMemory` calls, for an
owner of at most 9 bytes that labels no allocated block of that state: if `allocateMemory(owner, size, strategy)` reports success, then the
`releaseMemory(owner)` that follows reports success and returns exactly the
list before the allocation.  (Holds for every size and strategy character for
which the allocation succeeds.) -/
theorem allocate_release_roundtrip (N : Int) (hN : 0 < N) (ops : List Op)
    (hops : ∀ p s c, Op.allocate p s c ∈ ops → 0 < s)
    (_hnames : ∀ p s c, Op.allocate p s c ∈ ops → NameFits p)
    (owner : String) (size : Int) (s : Char) (_hname : NameFits owner)
    (hfresh : ∀ b ∈ run N ops, b.isAllocated = true → b.processName ≠ owner)
    (hsucc : (allocateMemory N (run N ops) owner size s).2 = Output.allocated size owner s) :
    releaseMemory (allocateMemory N (run N ops) owner size s).1 owner =
      (run N ops, Output.released owner) := by
  have h0 : TilesFrom 0 (initializeMemory N) N := by
    refine ⟨rfl, hN, ?_⟩
    show (0 : Int) + N = N
    omega
  have htiles : TilesFrom 0 (run N ops) N :=
    tilesFrom_foldl N ops _ (fun op hop p s c e => hops p s c (e ▸ hop)) h0
  have hchain : List.Chain' NotBothFree (run N ops) :=
    chain_foldl N ops (initializeMemory N) (List.chain'_singleton _)
  have hnames : ∀ n ∈ freeNames (run N ops), n = "" :=
    freeNames_foldl N ops _ (freeNames_initializeMemory N)
  obtain ⟨i, hsel⟩ := allocateMemory_success_selects N _ owner size s hsucc
  obtain ⟨b, hb, hf⟩ := selectBlock_sound N _ size s i hsel
  rw [allocateMemory_of_select N _ owner size s i hsel]
  obtain ⟨pre, post, hl, rfl⟩ := split_at_index _ i b hb
  rw [hl] at htiles hchain hnames hfresh ⊢
  apply release_after_place pre b post owner size
  · rintro rfl
    exact htiles.1
  · exact hf.1
  · exact hnames _ ((mem_freeNames _ _).2 ⟨b, by simp, hf.1, rfl⟩)
  · intro pv hpv
    rw [List.chain'_split, List.chain'_append] at hchain
    have := hchain.1.2.2 pv hpv b (by simp)
    by_contra hcon
    exact this ⟨by simpa using hcon, hf.1⟩
  · intro nx hnx
    rw [List.chain'_split, List.chain'_cons'] at hchain
    have := hchain.2.1 nx hnx
    by_contra hcon
    exact this ⟨hf.1, by simpa using hcon⟩
  · intro c hc hcc
    exact hfresh c (List.mem_append_left _ hc) hcc.1 hcc.2

/-- Instance of the round trip: after RQ A 10 F, RQ B 20 F, RL A on a space of 100, the
request RQ C 5 B followed by RL C. -/
theorem allocate_release_roundtrip_witness :
    releaseMemory
      (allocateMemory 100
        (run 100 [Op.allocate "A" 10 'F', Op.allocate "B" 20 'F', Op.release "A"])
        "C" 5 'B').1 "C" =
      (run 100 [Op.allocate "A" 10 'F', Op.allocate "B" 20 'F', Op.release "A"],
        Output.released "C") :=
  allocate_release_roundtrip 100 (by decide)
    [Op.allocate "A" 10 'F', Op.allocate "B" 20 'F', Op.release "A"]
    (by
      intro p s c h
      simp only [List.mem_cons, Op.allocate.injEq, reduceCtorEq, List.mem_singleton,
        List.not_mem_nil, or_false] at h
      rcases h with ⟨-, rfl, -⟩ | ⟨-, rfl, -⟩ <;> decide)
    (by
      intro p s c h
      simp only [List.mem_cons, Op.allocate.injEq, reduceCtorEq, List.mem_singleton,
        List.not_mem_nil, or_false] at h
      rcases h with ⟨rfl, -, -⟩ | ⟨rfl, -, -⟩ <;> decide)
    "C" 5 'B' (by decide) (by decide) (by decide)

end MemoryAllocate
